import Mathlib

/-!
# glog counters (apm.go): counter key codec, counter cells, registries, drains

A shallow embedding of `apm.go`.

* A Go `string` / `[]byte` is the list of its bytes, each byte a natural number
  below 256.  `byte(n)` is `n % 256`.
* An `int64` is an integer; the atomic add wraps with `wrap64`.
* A run-time panic (nil dereference, index or slice bound out of range) is `none`.
* The package level variables are the fields of `State`; calls to the logging
  collaborator, the datadog client and `initPeriodicLogger` are recorded, in
  order, in `State.trace`.
-/

namespace Glog

/-- A Go string, as the list of its bytes. -/
abbrev GoString := List Nat

/-- The constant `separator = ";"`: one byte, 59. -/
def separator : Nat := 59

/-! ## Counter key codec -/

/-- The function `encodeCounterKey`: the first byte is 0 for an empty tag list and
`byte(len(name)+1)` otherwise; then the name; then each tag, every tag but the first
preceded by the separator. -/
def encodeCounterKey (name : GoString) (tags : List GoString) : GoString :=
  if tags.length = 0 then
    ([] ++ [0]) ++ name
  else
    tags.enum.foldl
      (fun (key : GoString) (it : Nat × GoString) =>
        (if it.1 ≠ 0 then key ++ [separator] else key) ++ it.2)
      (([] ++ [(name.length + 1) % 256]) ++ name)

/-- The library function `strings.Split(s, sep)` for a separator of one byte: the
pieces of `s` between the occurrences of `sep`; one piece more than there are
occurrences, so never an empty list. -/
def stringsSplit : GoString → Nat → List GoString
  | [], _ => [[]]
  | c :: cs, sep =>
    if c = sep then [] :: stringsSplit cs sep
    else
      match stringsSplit cs sep with
      | [] => [[c]]
      | h :: t => (c :: h) :: t

/-- The function `decodeCounterKey`.  `bkey[0]` panics on the empty key and
`key[tagPos:]` panics when `tagPos` exceeds the length of the key. -/
def decodeCounterKey (key : GoString) : Option (GoString × List GoString) :=
  match key with
  | [] => none
  | tagPos :: _ =>
    if tagPos = 0 then
      some (key.drop 1, [])
    else if key.length < tagPos then
      none
    else
      some ((key.take tagPos).drop 1, stringsSplit (key.drop tagPos) separator)

/-- The tags joined by the separator, as the loop of `encodeCounterKey` lays them out. -/
def joinTags : List GoString → GoString
  | [] => []
  | [t] => t
  | t :: u :: ts => t ++ separator :: joinTags (u :: ts)

/-- No tag of the list contains the separator byte. -/
def sepFree (tags : List GoString) : Prop := ∀ t ∈ tags, separator ∉ t

instance (tags : List GoString) : Decidable (sepFree tags) := by
  unfold sepFree; infer_instance


/-! ## Counter cell -/

/-- Reduction of an integer to the range of `int64`, in two's complement. -/
def wrap64 (x : Int) : Int := (x + 2 ^ 63) % 2 ^ 64 - 2 ^ 63

/-- The integer is a value of `int64`. -/
def isInt64 (x : Int) : Prop := -2 ^ 63 ≤ x ∧ x < 2 ^ 63

instance (x : Int) : Decidable (isInt64 x) := by
  unfold isInt64; infer_instance

/-- The type `dataCounter`: one `int64` cell. -/
structure dataCounter where
  i : Int
deriving DecidableEq, Repr

/-- The function `newDataCounter`: a cell holding 0. -/
def newDataCounter : dataCounter := { i := 0 }

/-- The method `increment`: `atomic.AddInt64(d.i, val)`. -/
def dataCounter.increment (d : dataCounter) (val : Int) : dataCounter :=
  { i := wrap64 (d.i + val) }

/-- The method `decrement`: `atomic.AddInt64(d.i, -val)`, the negation an `int64` too. -/
def dataCounter.decrement (d : dataCounter) (val : Int) : dataCounter :=
  { i := wrap64 (d.i + wrap64 (-val)) }

/-- The method `set`: `atomic.StoreInt64(d.i, val)`. -/
def dataCounter.set (_d : dataCounter) (val : Int) : dataCounter :=
  { i := val }

/-- The method `read`: `atomic.LoadInt64(d.i)`. -/
def dataCounter.read (d : dataCounter) : Int := d.i

/-- The method `reset`, run without interleaving: the loaded value and the cell
after the store of 0. -/
def dataCounter.reset (d : dataCounter) : Int × dataCounter :=
  let current := d.i
  (current, { i := 0 })

/-- The function `setCounterValue`. -/
def setCounterValue (c : dataCounter) (value : Int) : dataCounter := c.set value

/-- The function `incCounterValue`. -/
def incCounterValue (c : dataCounter) (value : Int) : dataCounter := c.increment value

/-- The function `decCounterValue`. -/
def decCounterValue (c : dataCounter) (value : Int) : dataCounter := c.decrement value

/-! ## Counter registry -/

/-- The type `counterMap`: the Go map as the list of its entries, in the order a
`range` loop visits them.  (The lock `ll` has no sequential content.) -/
structure counterMap where
  m : List (GoString × dataCounter)
deriving DecidableEq, Repr

/-- The function `newCounterMap`. -/
def newCounterMap : counterMap := { m := [] }

/-- The map read `cm.m[key]`. -/
def mapGet (key : GoString) : List (GoString × dataCounter) → Option dataCounter
  | [] => none
  | (k, c) :: rest => if k = key then some c else mapGet key rest

/-- A method call on the cell `cm.m[key]` of a key that is present: the cell is
replaced by the cell after the call. -/
def mapApply (key : GoString) (f : dataCounter → dataCounter) :
    List (GoString × dataCounter) → List (GoString × dataCounter)
  | [] => []
  | (k, c) :: rest => if k = key then (k, f c) :: rest else (k, c) :: mapApply key f rest

/-- The map write `cm.m[key] = c` for a key that is absent. -/
def mapInsert (key : GoString) (c : dataCounter) (m : List (GoString × dataCounter)) :
    List (GoString × dataCounter) :=
  m ++ [(key, c)]

/-- The keys of a registry, in iteration order. -/
def counterMap.keys (cm : counterMap) : List GoString := cm.m.map Prod.fst

/-- The function `modifyCounter`, on a registry pointer that may be nil (`none`):
`cm.ll.RLock()` on a nil pointer panics.  The key is looked up, and once more under
the write lock when it was absent. -/
def modifyCounter (cm : Option counterMap) (name : GoString) (tags : List GoString)
    (value : Int) (modify : dataCounter → Int → dataCounter) : Option counterMap :=
  match cm with
  | none => none
  | some cm =>
    let key := encodeCounterKey name tags
    match mapGet key cm.m with
    | none =>
      match mapGet key cm.m with
      | none =>
        let c := newDataCounter
        some { m := mapInsert key (modify c value) cm.m }
      | some _ => some { m := mapApply key (fun c => modify c value) cm.m }
    | some _ => some { m := mapApply key (fun c => modify c value) cm.m }

/-- The invariant of a registry: no key occurs twice (it is a map) and every key
decodes without a panic (only `modifyCounter` inserts, and the keys it inserts come
from `encodeCounterKey`). -/
def counterMap.wf (cm : counterMap) : Prop :=
  cm.keys.Nodup ∧ ∀ k ∈ cm.keys, (decodeCounterKey k).isSome = true

instance (cm : counterMap) : Decidable cm.wf := by
  unfold counterMap.wf; infer_instance

/-! ## Package state and collaborators -/

/-- The bytes of an ASCII string literal. -/
def bytes (s : String) : GoString := s.toList.map Char.toNat

/-- The functions handed to `initPeriodicLogger`. -/
inductive PeriodicTask
  | writeHistogram
  | writePersistentCounter
  | writeStack
deriving DecidableEq, Repr

/-- A call to a collaborator outside `apm.go`: the leveled logger (`Infof`, `Info`,
`Errorf`, with the formatted message), the datadog client (`Gauge`, with the integer
that is converted to `float64`), and the start of a periodic logger goroutine (with
the interval in seconds). -/
inductive Event
  | Infof (line : GoString)
  | Errorf (line : GoString)
  | Gauge (name : GoString) (value : Int) (tags : List GoString) (rate : Nat)
  | initPeriodicLogger (seconds : Int) (fn : PeriodicTask)
deriving DecidableEq, Repr

/-- The package level variables of `apm.go`, and the calls made to collaborators so
far.  `hLogOnce` is true once `hLogOnce.Do` has run; `ddCli` is true when the datadog
client is set. -/
structure State where
  logInterval : Int
  printStack : Bool
  cMap : Option counterMap
  pcMap : Option counterMap
  ddCli : Bool
  hLogOnce : Bool
  trace : List Event
deriving DecidableEq, Repr

/-- The state of a process before any call: the flag defaults, both registries nil. -/
def State.initial : State :=
  { logInterval := 60, printStack := false, cMap := none, pcMap := none,
    ddCli := false, hLogOnce := false, trace := [] }

/-- The logger call `Infof` (and `Info`), with the message already formatted. -/
def Infof (st : State) (line : GoString) : State :=
  { st with trace := st.trace ++ [Event.Infof line] }

/-- The logger call `Errorf`, with the message already formatted. -/
def Errorf (st : State) (line : GoString) : State :=
  { st with trace := st.trace ++ [Event.Errorf line] }

/-- The function `SetLogInterval`. -/
def SetLogInterval (st : State) (l : Int) : State :=
  { st with logInterval := l }

/-- The function `initPeriodicLogger`: the goroutine it starts is recorded. -/
def initPeriodicLogger (st : State) (seconds : Int) (fn : PeriodicTask) : State :=
  { st with trace := st.trace ++ [Event.initPeriodicLogger seconds fn] }

/-- The function `StartHistogramLogging`: the body runs under `hLogOnce.Do`, so only
on the first call. -/
def StartHistogramLogging (st : State) : State :=
  if st.hLogOnce then st
  else
    let st := { st with hLogOnce := true }
    let st := { st with cMap := some newCounterMap }
    let st := { st with pcMap := some newCounterMap }
    let st := initPeriodicLogger st st.logInterval PeriodicTask.writeHistogram
    let st := initPeriodicLogger st st.logInterval PeriodicTask.writePersistentCounter
    let st := Infof st (bytes "printstack " ++ bytes (toString st.printStack))
    if st.printStack then
      let st := Infof st (bytes "Init printstack")
      initPeriodicLogger st st.logInterval PeriodicTask.writeStack
    else st

/-! ## Entry points -/

/-- The function `IncTaggedCounter`. -/
def IncTaggedCounter (st : State) (name : GoString) (tags : List GoString) (value : Int) :
    Option State :=
  if st.cMap.isNone then
    some (Errorf st (bytes "IncCounter() called before StartHistogramLogging()"))
  else
    (modifyCounter st.cMap name tags value incCounterValue).map
      (fun cm => { st with cMap := some cm })

/-- The function `IncCounter`. -/
def IncCounter (st : State) (name : GoString) (value : Int) : Option State :=
  IncTaggedCounter st name [] value

/-- The function `DecTaggedCounter`. -/
def DecTaggedCounter (st : State) (name : GoString) (tags : List GoString) (value : Int) :
    Option State :=
  if st.cMap.isNone then
    some (Errorf st (bytes "DecCounter() called before StartHistogramLogging()"))
  else
    (modifyCounter st.cMap name tags value decCounterValue).map
      (fun cm => { st with cMap := some cm })

/-- The function `DecCounter`. -/
def DecCounter (st : State) (name : GoString) (value : Int) : Option State :=
  DecTaggedCounter st name [] value

/-- The function `SetTaggedCounter`. -/
def SetTaggedCounter (st : State) (name : GoString) (tags : List GoString) (value : Int) :
    Option State :=
  if st.cMap.isNone then
    some (Errorf st (bytes "SetCounter() called before StartHistogramLogging()"))
  else
    (modifyCounter st.cMap name tags value setCounterValue).map
      (fun cm => { st with cMap := some cm })

/-- The function `SetCounter`. -/
def SetCounter (st : State) (name : GoString) (value : Int) : Option State :=
  SetTaggedCounter st name [] value

/-- The function `IncTaggedPCounter`. -/
def IncTaggedPCounter (st : State) (name : GoString) (tags : List GoString) (value : Int) :
    Option State :=
  if st.pcMap.isNone then
    some (Errorf st (bytes "IncCounter() called before StartHistogramLogging()"))
  else
    (modifyCounter st.pcMap name tags value incCounterValue).map
      (fun cm => { st with pcMap := some cm })

/-- The function `IncPCounter`. -/
def IncPCounter (st : State) (name : GoString) (value : Int) : Option State :=
  IncTaggedPCounter st name [] value

/-- The function `DecTaggedPCounter`. -/
def DecTaggedPCounter (st : State) (name : GoString) (tags : List GoString) (value : Int) :
    Option State :=
  if st.pcMap.isNone then
    some (Errorf st (bytes "DecCounter() called before StartHistogramLogging()"))
  else
    (modifyCounter st.pcMap name tags value decCounterValue).map
      (fun cm => { st with pcMap := some cm })

/-- The function `DecPCounter`. -/
def DecPCounter (st : State) (name : GoString) (value : Int) : Option State :=
  DecTaggedPCounter st name [] value

/-- The function `SetTaggedPCounter`: the guard reads `cMap`, the call passes `pcMap`. -/
def SetTaggedPCounter (st : State) (name : GoString) (tags : List GoString) (value : Int) :
    Option State :=
  if st.cMap.isNone then
    some (Errorf st (bytes "SetCounter() called before StartHistogramLogging()"))
  else
    (modifyCounter st.pcMap name tags value setCounterValue).map
      (fun cm => { st with pcMap := some cm })

/-- The function `SetPCounter`. -/
def SetPCounter (st : State) (name : GoString) (value : Int) : Option State :=
  SetTaggedPCounter st name [] value

/-! ## Export -/

/-- The verb `%d` on an `int64`. -/
def fmtInt (v : Int) : GoString := bytes (toString v)

/-- The verb `%v` on a `[]string`: the elements between square brackets, separated
by one space. -/
def fmtTags (tags : List GoString) : GoString :=
  bytes "[" ++ (tags.intersperse (bytes " ")).flatten ++ bytes "]"

/-- The function `logMetric`. -/
def logMetric (st : State) (name : GoString) (tags : List GoString) (val : Int) : State :=
  if tags.length = 0 then
    Infof st (name ++ bytes ": " ++ fmtInt val ++ bytes "\n")
  else
    Infof st (name ++ bytes "#" ++ fmtTags tags ++ bytes ": " ++ fmtInt val ++ bytes "\n")

/-- The function `sendMetric`. -/
def sendMetric (st : State) (name : GoString) (tags : List GoString) (val : Int) : State :=
  if !st.ddCli then st
  else { st with trace := st.trace ++ [Event.Gauge name val tags 1] }

/-- The function `writeMetric`. -/
def writeMetric (st : State) (name : GoString) (tags : List GoString) (val : Int) : State :=
  sendMetric (logMetric st name tags val) name tags val

/-- What `runtime.ReadMemStats` and `runtime.NumGoroutine` return at a drain: the
four `uint64` fields read, and the goroutine count. -/
structure MemStats where
  Alloc : Nat
  StackInuse : Nat
  HeapAlloc : Nat
  HeapInuse : Nat
  NumGoroutine : Int
deriving DecidableEq, Repr

/-- The function `writeMemoryConsumption`, on the values the runtime returned. -/
def writeMemoryConsumption (st : State) (mem : MemStats) : State :=
  let st := writeMetric st (bytes "memusage.alloc") [] (wrap64 mem.Alloc)
  let st := writeMetric st (bytes "memusage.stackinuse") [] (wrap64 mem.StackInuse)
  let st := writeMetric st (bytes "memusage.heapalloc") [] (wrap64 mem.HeapAlloc)
  let st := writeMetric st (bytes "memusage.heapinuse") [] (wrap64 mem.HeapInuse)
  writeMetric st (bytes "memusage.numgoroutine") [] (wrap64 mem.NumGoroutine)

/-- The `range` loop of `writeHistogram` over the entries of the map: each cell is
reset, its key decoded (a panic ends the run) and the metric written.  The result is
the entries after the loop and the state with the calls to the sinks recorded. -/
def writeHistogramLoop (st : State) :
    List (GoString × dataCounter) → Option (List (GoString × dataCounter) × State)
  | [] => some ([], st)
  | (key, c) :: rest =>
    let (val, c) := c.reset
    match decodeCounterKey key with
    | none => none
    | some (name, tags) =>
      match writeHistogramLoop (writeMetric st name tags val) rest with
      | none => none
      | some (rest, st) => some ((key, c) :: rest, st)

/-- The function `writeHistogram`; `cMap.m` panics on a nil `cMap`. -/
def writeHistogram (st : State) (mem : MemStats) : Option State :=
  match st.cMap with
  | none => none
  | some cm =>
    match writeHistogramLoop st cm.m with
    | none => none
    | some (m, st) => some (writeMemoryConsumption { st with cMap := some { m := m } } mem)

/-- The `range` loop of `writePersistentCounter`: each cell is read, its key decoded
and the metric written. -/
def writePersistentCounterLoop (st : State) :
    List (GoString × dataCounter) → Option State
  | [] => some st
  | (key, c) :: rest =>
    let val := c.read
    match decodeCounterKey key with
    | none => none
    | some (name, tags) => writePersistentCounterLoop (writeMetric st name tags val) rest

/-- The function `writePersistentCounter`; `pcMap.m` panics on a nil `pcMap`. -/
def writePersistentCounter (st : State) : Option State :=
  match st.pcMap with
  | none => none
  | some pm => writePersistentCounterLoop st pm.m

/-- The function `ResetPersistentCounter`; `pcMap.m` panics on a nil `pcMap`. -/
def ResetPersistentCounter (st : State) : Option State :=
  match st.pcMap with
  | none => none
  | some pm => some { st with pcMap := some { m := pm.m.map (fun kc => (kc.1, kc.2.reset.2)) } }

/-! ## Specification vocabulary -/

/-- A triple handed to `writeMetric`. -/
structure Metric where
  name : GoString
  tags : List GoString
  val : Int
deriving DecidableEq, Repr

/-- The calls `writeMetric(name, tags, val)` for a list of triples, in order. -/
def writeMetrics (st : State) (ms : List Metric) : State :=
  ms.foldl (fun s mt => writeMetric s mt.name mt.tags mt.val) st

/-- The entry `(key, cell)` is reported as the triple `mt`: name and tags are the
decoded key, the value is the value of the cell. -/
def reports (kc : GoString × dataCounter) (mt : Metric) : Prop :=
  decodeCounterKey kc.1 = some (mt.name, mt.tags) ∧ mt.val = kc.2.i

/-- The entries of a registry with every cell at 0. -/
def zeroed (m : List (GoString × dataCounter)) : List (GoString × dataCounter) :=
  m.map (fun kc => (kc.1, ({ i := 0 } : dataCounter)))

/-- The triple the drains write for an entry whose key decodes. -/
def metricOf (kc : GoString × dataCounter) : Metric :=
  match decodeCounterKey kc.1 with
  | some (name, tags) => { name := name, tags := tags, val := kc.2.i }
  | none => { name := [], tags := [], val := kc.2.i }

/-- The calls to the logger and to the datadog client that one `writeMetric` makes,
with the datadog client set or not. -/
def metricEvents (ddCli : Bool) (mt : Metric) : List Event :=
  (writeMetric { logInterval := 60, printStack := false, cMap := none, pcMap := none,
                 ddCli := ddCli, hLogOnce := false, trace := [] }
    mt.name mt.tags mt.val).trace

/-- A registry with the counter `a` at 2 and the counter `b`, tagged `t`, at 5. -/
def sampleRegistry : counterMap :=
  { m := [(encodeCounterKey [97] [], { i := 2 }), (encodeCounterKey [98] [[116]], { i := 5 })] }

/-- A state after setup whose resettable and persistent registry are the sample. -/
def sampleState : State :=
  { logInterval := 1, printStack := false, cMap := some sampleRegistry,
    pcMap := some sampleRegistry, ddCli := false, hLogOnce := true, trace := [] }

/-- Memory figures of a drain. -/
def sampleMem : MemStats :=
  { Alloc := 4096, StackInuse := 512, HeapAlloc := 2048, HeapInuse := 3072, NumGoroutine := 3 }

/-- The twelve counter entry points. -/
inductive EntryPoint
  | IncCounter
  | IncTaggedCounter
  | DecCounter
  | DecTaggedCounter
  | SetCounter
  | SetTaggedCounter
  | IncPCounter
  | IncTaggedPCounter
  | DecPCounter
  | DecTaggedPCounter
  | SetPCounter
  | SetTaggedPCounter
deriving DecidableEq, Repr

/-- A call of an entry point; the untagged ones take no tag list. -/
def EntryPoint.call (ep : EntryPoint) (st : State) (name : GoString)
    (tags : List GoString) (value : Int) : Option State :=
  match ep with
  | EntryPoint.IncCounter => Glog.IncCounter st name value
  | EntryPoint.IncTaggedCounter => Glog.IncTaggedCounter st name tags value
  | EntryPoint.DecCounter => Glog.DecCounter st name value
  | EntryPoint.DecTaggedCounter => Glog.DecTaggedCounter st name tags value
  | EntryPoint.SetCounter => Glog.SetCounter st name value
  | EntryPoint.SetTaggedCounter => Glog.SetTaggedCounter st name tags value
  | EntryPoint.IncPCounter => Glog.IncPCounter st name value
  | EntryPoint.IncTaggedPCounter => Glog.IncTaggedPCounter st name tags value
  | EntryPoint.DecPCounter => Glog.DecPCounter st name value
  | EntryPoint.DecTaggedPCounter => Glog.DecTaggedPCounter st name tags value
  | EntryPoint.SetPCounter => Glog.SetPCounter st name value
  | EntryPoint.SetTaggedPCounter => Glog.SetTaggedPCounter st name tags value

/-- A step of a run of the package: a counter entry point, a drain, the reset of the
persistent counters, or one of the two setup functions. -/
inductive Op
  | counter (ep : EntryPoint) (name : GoString) (tags : List GoString) (value : Int)
  | writeHistogram (mem : MemStats)
  | writePersistentCounter
  | ResetPersistentCounter
  | StartHistogramLogging
  | SetLogInterval (l : Int)
deriving DecidableEq, Repr

/-- One step of a run; `none` when the step panics. -/
def Op.run (op : Op) (st : State) : Option State :=
  match op with
  | Op.counter ep name tags value => ep.call st name tags value
  | Op.writeHistogram mem => Glog.writeHistogram st mem
  | Op.writePersistentCounter => Glog.writePersistentCounter st
  | Op.ResetPersistentCounter => Glog.ResetPersistentCounter st
  | Op.StartHistogramLogging => some (Glog.StartHistogramLogging st)
  | Op.SetLogInterval l => some (Glog.SetLogInterval st l)

/-- A run: the steps in order, ended by the first panic. -/
def runOps : List Op → State → Option State
  | [], st => some st
  | op :: ops, st => (op.run st).bind (runOps ops)

/-- The same function called `n` times in a row. -/
def repeatCall (f : State → Option State) : Nat → State → Option State
  | 0, st => some st
  | n + 1, st => (f st).bind (repeatCall f n)

/-- A call of `IncCounter` or of `DecCounter`. -/
inductive HistCall
  | IncCounter (name : GoString) (value : Int)
  | DecCounter (name : GoString) (value : Int)
deriving DecidableEq, Repr

/-- The counter name of a call. -/
def HistCall.name : HistCall → GoString
  | HistCall.IncCounter name _ => name
  | HistCall.DecCounter name _ => name

/-- The call itself. -/
def HistCall.run (c : HistCall) (st : State) : Option State :=
  match c with
  | HistCall.IncCounter name value => Glog.IncCounter st name value
  | HistCall.DecCounter name value => Glog.DecCounter st name value

/-- A sequence of `IncCounter` and `DecCounter` calls, in order. -/
def runHistCalls : List HistCall → State → Option State
  | [], st => some st
  | c :: cs, st => (c.run st).bind (runHistCalls cs)

/-- The sum of the increments issued for a name. -/
def incSum (name : GoString) : List HistCall → Int
  | [] => 0
  | HistCall.IncCounter n v :: cs => (if n = name then v else 0) + incSum name cs
  | HistCall.DecCounter _ _ :: cs => incSum name cs

/-- The sum of the decrements issued for a name. -/
def decSum (name : GoString) : List HistCall → Int
  | [] => 0
  | HistCall.IncCounter _ _ :: cs => decSum name cs
  | HistCall.DecCounter n v :: cs => (if n = name then v else 0) + decSum name cs

/-- The three operations `modifyCounter` is called with. -/
inductive CellOp
  | increment
  | decrement
  | set
deriving DecidableEq, Repr

/-- The function passed to `modifyCounter` for an operation. -/
def CellOp.modify : CellOp → dataCounter → Int → dataCounter
  | CellOp.increment => incCounterValue
  | CellOp.decrement => decCounterValue
  | CellOp.set => setCounterValue

/-- The `int64` result of an operation on the value `x` with the argument `v`:
`x + v`, `x - v` and `v`, the sum and the difference in two's complement. -/
def CellOp.result : CellOp → Int → Int → Int
  | CellOp.increment, x, v => wrap64 (x + v)
  | CellOp.decrement, x, v => wrap64 (x - v)
  | CellOp.set, _, v => v

/-- The result of an operation in exact integer arithmetic: `x + v`, `x - v`, `v`. -/
def CellOp.exact : CellOp → Int → Int → Int
  | CellOp.increment, x, v => x + v
  | CellOp.decrement, x, v => x - v
  | CellOp.set, _, v => v

/-- The calls of the tests, with `a` for `test1` and `b` for `test2`: `a` up by 2 and
down by 1, `b` down by 1. -/
def sampleCalls : List HistCall :=
  [HistCall.IncCounter [97] 2, HistCall.DecCounter [97] 1, HistCall.DecCounter [98] 1]

/-! ## Vocabulary of the later claims -/

/-- The first half of `reset`: `current := atomic.LoadInt64(d.i)`. -/
def dataCounter.resetLoad (d : dataCounter) : Int := d.i

/-- The second half of `reset`: `atomic.StoreInt64(d.i, 0)`. -/
def dataCounter.resetStore (_d : dataCounter) : dataCounter := { i := 0 }

/-- An atomic step on one cell, taken by a goroutine running `reset` or by a
goroutine running `increment` or `decrement`. -/
inductive RaceStep
  | resetLoad
  | resetStore
  | increment (val : Int)
  | decrement (val : Int)
deriving DecidableEq, Repr

/-- The cell shared by the goroutines and the local variable `current` of the one
`reset` in flight. -/
structure RaceState where
  cell : dataCounter
  current : Int
deriving DecidableEq, Repr

/-- One atomic step. -/
def RaceStep.run (s : RaceStep) (r : RaceState) : RaceState :=
  match s with
  | RaceStep.resetLoad => { r with current := r.cell.resetLoad }
  | RaceStep.resetStore => { r with cell := r.cell.resetStore }
  | RaceStep.increment val => { r with cell := r.cell.increment val }
  | RaceStep.decrement val => { r with cell := r.cell.decrement val }

/-- An interleaving: the atomic steps in the order the memory sees them. -/
def runRace (steps : List RaceStep) (r : RaceState) : RaceState :=
  steps.foldl (fun r s => s.run r) r

/-- The updates of an interleaving, summed: increments count up, decrements down. -/
def raceUpdates : List RaceStep → Int
  | [] => 0
  | RaceStep.increment val :: rest => val + raceUpdates rest
  | RaceStep.decrement val :: rest => -val + raceUpdates rest
  | _ :: rest => raceUpdates rest

/-- The key layout in the words of the specification: a zero marker and the name
when there are no tags; otherwise the marker `len(name) + 1`, the name, and the tags
joined with the separator. -/
def referenceKey (name : GoString) (tags : List GoString) : GoString :=
  if tags = [] then 0 :: name
  else (name.length + 1) :: (name ++ List.intercalate [separator] tags)

/-- The signed decimal numeral of an integer: a minus sign when negative, then the
decimal digits of the absolute value, most significant first (`0` for zero). -/
def decimal (v : Int) : GoString :=
  (if v < 0 then [45] else [])
    ++ (if v = 0 then [48] else ((Nat.digits 10 v.natAbs).reverse.map (fun d => d + 48)))

/-- The log line in the words of the specification: `name: value`, or
`name#[t1 t2 ... tn]: value` with the tags separated by one space, the value in signed
decimal; the line ends with a newline. -/
def referenceLine (name : GoString) (tags : List GoString) (val : Int) : GoString :=
  if tags = [] then
    name ++ [58, 32] ++ decimal val ++ [10]
  else
    name ++ [35, 91] ++ List.intercalate [32] tags ++ [93, 58, 32] ++ decimal val ++ [10]

/-- The entry points of the persistent registry. -/
def EntryPoint.isPersistent : EntryPoint → Bool
  | EntryPoint.IncPCounter => true
  | EntryPoint.IncTaggedPCounter => true
  | EntryPoint.DecPCounter => true
  | EntryPoint.DecTaggedPCounter => true
  | EntryPoint.SetPCounter => true
  | EntryPoint.SetTaggedPCounter => true
  | _ => false

/-- A state after setup: the once-flag is set and both registries exist and are well
formed. -/
def State.ready (st : State) : Prop :=
  st.hLogOnce = true
    ∧ (∃ cm, st.cMap = some cm ∧ cm.wf)
    ∧ (∃ pm, st.pcMap = some pm ∧ pm.wf)

/-- The keys of a registry pointer; none for nil. -/
def keysOf (cm : Option counterMap) : List GoString :=
  match cm with
  | none => []
  | some cm => cm.keys

/-! ## What reaches the sinks -/

/-- The calls one emitted triple makes on the sinks, in the words of the
specification: the reference line to the logger, then, when the datadog client is set,
the gauge `(name, value, tags, rate 1)` to the client. -/
def emission (ddCli : Bool) (mt : Metric) : List Event :=
  Event.Infof (referenceLine mt.name mt.tags mt.val)
    :: (if ddCli then [Event.Gauge mt.name mt.val mt.tags 1] else [])

/-- The calls a list of emitted triples makes on the sinks, in order. -/
def emissions (ddCli : Bool) (ms : List Metric) : List Event :=
  (ms.map (emission ddCli)).flatten

/-- The five memory triples a histogram drain ends with, all without tags. -/
def memoryTriples (mem : MemStats) : List Metric :=
  [{ name := bytes "memusage.alloc", tags := [], val := wrap64 mem.Alloc },
   { name := bytes "memusage.stackinuse", tags := [], val := wrap64 mem.StackInuse },
   { name := bytes "memusage.heapalloc", tags := [], val := wrap64 mem.HeapAlloc },
   { name := bytes "memusage.heapinuse", tags := [], val := wrap64 mem.HeapInuse },
   { name := bytes "memusage.numgoroutine", tags := [], val := wrap64 mem.NumGoroutine }]

/-- The names of the five memory triples. -/
def memoryNames : List GoString :=
  [bytes "memusage.alloc", bytes "memusage.stackinuse", bytes "memusage.heapalloc",
   bytes "memusage.heapinuse", bytes "memusage.numgoroutine"]

/-- A state right after the first `StartHistogramLogging` of a process whose datadog
client is set. -/
def startedState : State :=
  StartHistogramLogging
    { logInterval := 60, printStack := false, cMap := none, pcMap := none,
      ddCli := true, hLogOnce := false, trace := [] }

/-! ### Codec lemmas -/

theorem foldl_enumFrom_succ (ts : List GoString) (n : Nat) (key : GoString) :
    (ts.enumFrom (n + 1)).foldl
      (fun (key : GoString) (it : Nat × GoString) =>
        (if it.1 ≠ 0 then key ++ [separator] else key) ++ it.2) key
      = key ++ (ts.map (fun t => separator :: t)).flatten := by
  induction ts generalizing n key with
  | nil => simp
  | cons t ts ih =>
    simp only [List.enumFrom_cons, List.foldl_cons, List.map_cons, List.flatten_cons]
    rw [ih]
    simp

theorem joinTags_cons (t : GoString) (ts : List GoString) :
    joinTags (t :: ts) = t ++ (ts.map (fun t => separator :: t)).flatten := by
  induction ts generalizing t with
  | nil => simp [joinTags]
  | cons u ts ih => simp [joinTags, ih]

/-- The layout of a key with tags: marker byte, name, joined tags. -/
theorem encodeCounterKey_tags (name : GoString) (t : GoString) (ts : List GoString) :
    encodeCounterKey name (t :: ts)
      = (name.length + 1) % 256 :: (name ++ joinTags (t :: ts)) := by
  unfold encodeCounterKey
  simp only [List.length_cons, Nat.succ_ne_zero, if_false, List.enum, List.enumFrom_cons,
    List.foldl_cons, Nat.zero_add]
  rw [foldl_enumFrom_succ, joinTags_cons]
  simp

/-- The layout of a key without tags: a zero byte, then the name. -/
theorem encodeCounterKey_nil (name : GoString) :
    encodeCounterKey name [] = 0 :: name := by
  simp [encodeCounterKey]

theorem stringsSplit_ne_nil (s : GoString) (sep : Nat) : stringsSplit s sep ≠ [] := by
  induction s with
  | nil => simp [stringsSplit]
  | cons c cs ih =>
    unfold stringsSplit
    split
    · simp
    · split <;> simp

theorem stringsSplit_free (t : GoString) (sep : Nat) (h : sep ∉ t) :
    stringsSplit t sep = [t] := by
  induction t with
  | nil => simp [stringsSplit]
  | cons c cs ih =>
    have hc : c ≠ sep := fun e => h (by simp [e])
    have hcs : sep ∉ cs := fun e => h (by simp [e])
    simp [stringsSplit, hc, ih hcs]

theorem stringsSplit_append_sep (t rest : GoString) (sep : Nat) (h : sep ∉ t) :
    stringsSplit (t ++ sep :: rest) sep = t :: stringsSplit rest sep := by
  induction t with
  | nil => simp [stringsSplit]
  | cons c cs ih =>
    have hc : c ≠ sep := fun e => h (by simp [e])
    have hcs : sep ∉ cs := fun e => h (by simp [e])
    simp [stringsSplit, hc, ih hcs]

theorem stringsSplit_joinTags (t : GoString) (ts : List GoString)
    (h : sepFree (t :: ts)) : stringsSplit (joinTags (t :: ts)) separator = t :: ts := by
  induction ts generalizing t with
  | nil => exact stringsSplit_free t separator (h t (by simp))
  | cons u ts ih =>
    have ht : separator ∉ t := h t (by simp)
    have hrest : sepFree (u :: ts) := fun x hx => h x (List.mem_cons_of_mem _ hx)
    simp only [joinTags]
    rw [stringsSplit_append_sep t _ separator ht, ih u hrest]

/-- Decoding an encoded key, whenever the marker byte holds `len(name)+1`. -/
theorem decode_encode (name : GoString) (tags : List GoString)
    (hlen : name.length + 1 < 256) (hsep : sepFree tags) :
    decodeCounterKey (encodeCounterKey name tags) = some (name, tags) := by
  cases tags with
  | nil => simp [encodeCounterKey_nil, decodeCounterKey]
  | cons t ts =>
    rw [encodeCounterKey_tags]
    have hm : (name.length + 1) % 256 = name.length + 1 := Nat.mod_eq_of_lt hlen
    rw [hm]
    simp only [decodeCounterKey, Nat.succ_ne_zero, if_false, List.length_cons,
      List.length_append]
    have h1 : ¬ (name.length + (joinTags (t :: ts)).length + 1 < name.length + 1) := by omega
    rw [if_neg h1]
    simp only [List.take_succ_cons, List.drop_succ_cons, List.drop_zero,
      List.take_left', List.drop_left']
    rw [stringsSplit_joinTags t ts hsep]

/-- Decoding an encoded key without tags gives the name back, whatever its length. -/
theorem decode_encode_nil (name : GoString) :
    decodeCounterKey (encodeCounterKey name []) = some (name, []) := by
  simp [encodeCounterKey_nil, decodeCounterKey]

/-- The name a key decodes to is shorter than the marker byte of the key. -/
theorem decode_name_length (key name : GoString) (tags : List GoString) (m : Nat)
    (rest : GoString) (hkey : key = m :: rest) (hm : m ≠ 0)
    (h : decodeCounterKey key = some (name, tags)) : name.length + 1 ≤ m := by
  subst hkey
  simp only [decodeCounterKey, hm, if_false] at h
  split at h
  · exact absurd h (by simp)
  · simp only [Option.some.injEq, Prod.mk.injEq] at h
    rw [← h.1]
    simp only [List.length_drop, List.length_take]
    omega

/-- A key with tags whose marker byte wrapped to 0 decodes to the name followed by
the joined tags, and no tags. -/
theorem decode_encode_marker_zero (name t : GoString) (ts : List GoString)
    (h : (name.length + 1) % 256 = 0) :
    decodeCounterKey (encodeCounterKey name (t :: ts))
      = some (name ++ joinTags (t :: ts), []) := by
  rw [encodeCounterKey_tags, h]
  simp only [decodeCounterKey, if_true, List.drop_succ_cons, List.drop_zero]

/-- Joining the pieces of a split gives the string back. -/
theorem joinTags_stringsSplit (s : GoString) :
    joinTags (stringsSplit s separator) = s := by
  induction s with
  | nil => simp [stringsSplit, joinTags]
  | cons c cs ih =>
    unfold stringsSplit
    by_cases hc : c = separator
    · rw [if_pos hc]
      cases hs : stringsSplit cs separator with
      | nil => exact absurd hs (stringsSplit_ne_nil cs separator)
      | cons h t =>
        rw [hs] at ih
        simp only [joinTags, List.nil_append, ih, hc]
    · rw [if_neg hc]
      cases hs : stringsSplit cs separator with
      | nil => exact absurd hs (stringsSplit_ne_nil cs separator)
      | cons h t =>
        rw [hs] at ih
        simp only []
        rw [joinTags_cons]
        rw [joinTags_cons] at ih
        simp only [List.cons_append, ih]

/-- Every encoded key decodes: the marker byte is at most the length of the key. -/
theorem decode_encode_isSome (name : GoString) (tags : List GoString) :
    (decodeCounterKey (encodeCounterKey name tags)).isSome = true := by
  cases tags with
  | nil => simp [decode_encode_nil]
  | cons t ts =>
    rw [encodeCounterKey_tags]
    simp only [decodeCounterKey]
    split
    · rfl
    · have hle : (name.length + 1) % 256 ≤ name.length + 1 := Nat.mod_le _ _
      have h1 : ¬ ((name ++ joinTags (t :: ts)).length + 1 < (name.length + 1) % 256) := by
        rw [List.length_append]; omega
      simp only [List.length_cons]
      rw [if_neg h1]
      rfl

/-- The key is the marker byte, the decoded name and the joined decoded tags. -/
theorem decode_some_key (key name : GoString) (tags : List GoString)
    (h : decodeCounterKey key = some (name, tags)) :
    (tags = [] ∧ key = 0 :: name)
      ∨ (tags ≠ [] ∧ key = (name.length + 1) :: (name ++ joinTags tags)) := by
  cases key with
  | nil => simp [decodeCounterKey] at h
  | cons m rest =>
    simp only [decodeCounterKey] at h
    by_cases hm : m = 0
    · left
      rw [if_pos hm] at h
      simp only [List.drop_succ_cons, List.drop_zero, Option.some.injEq, Prod.mk.injEq] at h
      exact ⟨h.2.symm, by rw [hm, h.1]⟩
    · right
      rw [if_neg hm] at h
      split at h
      · exact absurd h (by simp)
      · rename_i hlen
        simp only [List.length_cons] at hlen
        obtain ⟨k, rfl⟩ : ∃ k, m = k + 1 := ⟨m - 1, by omega⟩
        simp only [List.take_succ_cons, List.drop_succ_cons, List.drop_zero,
          Option.some.injEq, Prod.mk.injEq] at h
        obtain ⟨hname, htags⟩ := h
        refine ⟨?_, ?_⟩
        · rw [← htags]; exact stringsSplit_ne_nil _ _
        · have hl : name.length = k := by
            rw [← hname, List.length_take]; omega
          rw [← htags, joinTags_stringsSplit, hl, ← hname, List.take_append_drop]

/-- Two keys that decode to the same name and tags are the same key. -/
theorem decode_injective (k1 k2 name : GoString) (tags : List GoString)
    (h1 : decodeCounterKey k1 = some (name, tags))
    (h2 : decodeCounterKey k2 = some (name, tags)) : k1 = k2 := by
  rcases decode_some_key k1 name tags h1 with ⟨e1, r1⟩ | ⟨e1, r1⟩ <;>
    rcases decode_some_key k2 name tags h2 with ⟨e2, r2⟩ | ⟨e2, r2⟩
  · rw [r1, r2]
  · exact absurd e1 e2
  · exact absurd e2 e1
  · rw [r1, r2]

/-! ### Cell lemmas -/

theorem wrap64_of_isInt64 (x : Int) (h : isInt64 x) : wrap64 x = x := by
  unfold isInt64 at h
  unfold wrap64
  norm_num at h ⊢
  omega

theorem wrap64_isInt64 (x : Int) : isInt64 (wrap64 x) := by
  unfold isInt64 wrap64
  norm_num
  omega

theorem wrap64_add_wrap64 (a b : Int) : wrap64 (a + wrap64 b) = wrap64 (a + b) := by
  unfold wrap64
  norm_num
  omega

theorem wrap64_wrap64_add (a b : Int) : wrap64 (wrap64 a + b) = wrap64 (a + b) := by
  unfold wrap64
  norm_num
  omega

/-- The cell after an operation holds the `int64` result of the operation. -/
theorem CellOp.modify_eq (op : CellOp) (x v : Int) :
    op.modify { i := x } v = { i := op.result x v } := by
  cases op
  · rfl
  · simp only [CellOp.modify, decCounterValue, dataCounter.decrement, CellOp.result,
      wrap64_add_wrap64]
    rfl
  · rfl

/-- The `int64` result is the exact result whenever that is an `int64`. -/
theorem CellOp.result_exact (op : CellOp) (x v : Int) (h : isInt64 (op.exact x v)) :
    op.result x v = op.exact x v := by
  cases op
  · exact wrap64_of_isInt64 _ h
  · exact wrap64_of_isInt64 _ h
  · rfl

/-! ### Registry lemmas -/

theorem mapGet_eq_none_iff (key : GoString) (m : List (GoString × dataCounter)) :
    mapGet key m = none ↔ key ∉ m.map Prod.fst := by
  induction m with
  | nil => simp [mapGet]
  | cons kc rest ih =>
    obtain ⟨k, c⟩ := kc
    simp only [mapGet, List.map_cons, List.mem_cons, not_or]
    by_cases hk : k = key
    · simp [hk]
    · rw [if_neg hk, ih]
      constructor
      · intro h; exact ⟨fun e => hk e.symm, h⟩
      · intro h; exact h.2

theorem mapGet_mem (key : GoString) (c : dataCounter) (m : List (GoString × dataCounter))
    (h : mapGet key m = some c) : (key, c) ∈ m := by
  induction m with
  | nil => simp [mapGet] at h
  | cons kc rest ih =>
    obtain ⟨k, c'⟩ := kc
    simp only [mapGet] at h
    by_cases hk : k = key
    · rw [if_pos hk] at h
      simp only [Option.some.injEq] at h
      simp [hk, h]
    · rw [if_neg hk] at h
      exact List.mem_cons_of_mem _ (ih h)

theorem keys_mapApply (key : GoString) (f : dataCounter → dataCounter)
    (m : List (GoString × dataCounter)) :
    (mapApply key f m).map Prod.fst = m.map Prod.fst := by
  induction m with
  | nil => rfl
  | cons kc rest ih =>
    obtain ⟨k, c⟩ := kc
    simp only [mapApply]
    split
    · rfl
    · simp only [List.map_cons, ih]

theorem mapGet_mapApply (key k : GoString) (f : dataCounter → dataCounter)
    (m : List (GoString × dataCounter)) :
    mapGet k (mapApply key f m)
      = if k = key then (mapGet key m).map f else mapGet k m := by
  induction m with
  | nil => simp [mapGet, mapApply]
  | cons kc rest ih =>
    obtain ⟨k', c⟩ := kc
    simp only [mapApply]
    by_cases h1 : k' = key
    · rw [if_pos h1]
      simp only [mapGet]
      by_cases h2 : k = key
      · simp [h1, h2]
      · have h3 : ¬ k' = k := fun e => h2 (e ▸ h1)
        simp [h2, h3]
    · rw [if_neg h1]
      simp only [mapGet, ih]
      by_cases h2 : k = key
      · have h3 : ¬ k' = k := fun e => h1 (e.trans h2)
        simp [h1, h2, h3]
      · simp [h2]

theorem mapGet_mapInsert (key k : GoString) (c : dataCounter)
    (m : List (GoString × dataCounter)) (habs : mapGet key m = none) :
    mapGet k (mapInsert key c m) = if k = key then some c else mapGet k m := by
  unfold mapInsert
  induction m with
  | nil =>
    simp only [List.nil_append, mapGet]
    by_cases h : k = key
    · simp [h]
    · have h' : ¬ key = k := fun e => h e.symm
      simp [h, h']
  | cons kc rest ih =>
    obtain ⟨k', c'⟩ := kc
    simp only [mapGet] at habs
    by_cases h1 : k' = key
    · rw [if_pos h1] at habs
      exact absurd habs (by simp)
    · rw [if_neg h1] at habs
      simp only [List.cons_append, mapGet]
      by_cases h2 : k' = k
      · have h3 : ¬ k = key := fun e => h1 (h2.trans e)
        simp [h2, h3]
      · rw [if_neg h2, if_neg h2]
        exact ih habs

theorem keys_mapInsert (key : GoString) (c : dataCounter)
    (m : List (GoString × dataCounter)) :
    (mapInsert key c m).map Prod.fst = m.map Prod.fst ++ [key] := by
  simp [mapInsert]

/-- In a map, the entries under a key that is present are one entry. -/
theorem filter_key_eq (key : GoString) (c : dataCounter) (m : List (GoString × dataCounter))
    (hnd : (m.map Prod.fst).Nodup) (h : mapGet key m = some c) :
    m.filter (fun kc => decide (kc.1 = key)) = [(key, c)] := by
  induction m with
  | nil => simp [mapGet] at h
  | cons kc rest ih =>
    obtain ⟨k', c'⟩ := kc
    simp only [List.map_cons, List.nodup_cons] at hnd
    simp only [mapGet] at h
    by_cases hk : k' = key
    · rw [if_pos hk] at h
      simp only [Option.some.injEq] at h
      subst hk
      subst h
      have hnil : rest.filter (fun kc => decide (kc.1 = k')) = [] := by
        rw [List.filter_eq_nil_iff]
        intro kc hkc hdec
        simp only [decide_eq_true_eq] at hdec
        exact hnd.1 (hdec ▸ List.mem_map_of_mem Prod.fst hkc)
      simp [List.filter_cons, hnil]
    · rw [if_neg hk] at h
      simp [List.filter_cons, hk, ih hnd.2 h]

/-- The result of `modifyCounter` on an initialized registry. -/
theorem modifyCounter_some (cm : counterMap) (name : GoString) (tags : List GoString)
    (value : Int) (modify : dataCounter → Int → dataCounter) :
    modifyCounter (some cm) name tags value modify
      = some { m :=
          match mapGet (encodeCounterKey name tags) cm.m with
          | none => mapInsert (encodeCounterKey name tags) (modify newDataCounter value) cm.m
          | some _ => mapApply (encodeCounterKey name tags) (fun c => modify c value) cm.m } := by
  unfold modifyCounter
  cases h : mapGet (encodeCounterKey name tags) cm.m <;> simp [h]

/-- The cells of a registry after `modifyCounter`: the addressed cell is the operation
on the old cell (a fresh one when the key was absent), the other cells are as before. -/
theorem modifyCounter_get (cm cm' : counterMap) (name : GoString) (tags : List GoString)
    (value : Int) (modify : dataCounter → Int → dataCounter)
    (h : modifyCounter (some cm) name tags value modify = some cm') (k : GoString) :
    mapGet k cm'.m
      = if k = encodeCounterKey name tags then
          some (modify ((mapGet (encodeCounterKey name tags) cm.m).getD newDataCounter) value)
        else mapGet k cm.m := by
  rw [modifyCounter_some] at h
  simp only [Option.some.injEq] at h
  subst h
  cases hg : mapGet (encodeCounterKey name tags) cm.m with
  | none =>
    simp only [Option.getD_none]
    exact mapGet_mapInsert _ k _ cm.m hg
  | some c =>
    simp only [Option.getD_some]
    rw [mapGet_mapApply, hg]
    rfl

/-- The keys of a registry after `modifyCounter`: the key is appended when absent. -/
theorem modifyCounter_keys (cm cm' : counterMap) (name : GoString) (tags : List GoString)
    (value : Int) (modify : dataCounter → Int → dataCounter)
    (h : modifyCounter (some cm) name tags value modify = some cm') :
    cm'.keys
      = if encodeCounterKey name tags ∈ cm.keys then cm.keys
        else cm.keys ++ [encodeCounterKey name tags] := by
  rw [modifyCounter_some] at h
  simp only [Option.some.injEq] at h
  subst h
  unfold counterMap.keys
  cases hg : mapGet (encodeCounterKey name tags) cm.m with
  | none =>
    have hn := (mapGet_eq_none_iff _ _).1 hg
    simp only [if_neg hn]
    exact keys_mapInsert _ _ _
  | some c =>
    have hn : encodeCounterKey name tags ∈ cm.m.map Prod.fst := by
      by_contra hc
      rw [(mapGet_eq_none_iff _ _).2 hc] at hg
      exact absurd hg (by simp)
    simp only [if_pos hn]
    exact keys_mapApply _ _ _

/-- The invariant of a registry holds for `newCounterMap`. -/
theorem newCounterMap_wf : newCounterMap.wf := by
  simp [counterMap.wf, counterMap.keys, newCounterMap]

/-- The invariant of a registry is kept by `modifyCounter`. -/
theorem modifyCounter_wf (cm cm' : counterMap) (name : GoString) (tags : List GoString)
    (value : Int) (modify : dataCounter → Int → dataCounter) (hwf : cm.wf)
    (h : modifyCounter (some cm) name tags value modify = some cm') : cm'.wf := by
  have hk := modifyCounter_keys cm cm' name tags value modify h
  unfold counterMap.wf
  rw [hk]
  by_cases hin : encodeCounterKey name tags ∈ cm.keys
  · simp only [if_pos hin]
    exact hwf
  · simp only [if_neg hin]
    refine ⟨?_, ?_⟩
    · rw [List.nodup_append]
      refine ⟨hwf.1, by simp, ?_⟩
      intro a ha hb
      simp only [List.mem_singleton] at hb
      exact hin (hb ▸ ha)
    · intro k hk'
      rw [List.mem_append] at hk'
      rcases hk' with hk' | hk'
      · exact hwf.2 k hk'
      · simp only [List.mem_singleton] at hk'
        rw [hk']
        exact decode_encode_isSome name tags

/-! ### Entry point lemmas -/

/-- An entry point of the resettable registry, once `cMap` is set: the registry is
replaced by the one `modifyCounter` leaves. -/
theorem IncTaggedCounter_some (st : State) (cm : counterMap) (name : GoString)
    (tags : List GoString) (value : Int) (hc : st.cMap = some cm) :
    IncTaggedCounter st name tags value
      = (modifyCounter (some cm) name tags value incCounterValue).map
          (fun cm' => { st with cMap := some cm' }) := by
  simp [IncTaggedCounter, hc]

theorem DecTaggedCounter_some (st : State) (cm : counterMap) (name : GoString)
    (tags : List GoString) (value : Int) (hc : st.cMap = some cm) :
    DecTaggedCounter st name tags value
      = (modifyCounter (some cm) name tags value decCounterValue).map
          (fun cm' => { st with cMap := some cm' }) := by
  simp [DecTaggedCounter, hc]

theorem incSum_not_called (name : GoString) (calls : List HistCall)
    (h : name ∉ calls.map HistCall.name) : incSum name calls = 0 := by
  induction calls with
  | nil => rfl
  | cons c cs ih =>
    simp only [List.map_cons, List.mem_cons, not_or] at h
    cases c with
    | IncCounter n v =>
      have hn : ¬ n = name := fun e => h.1 e.symm
      simp [incSum, hn, ih h.2]
    | DecCounter n v => simp [incSum, ih h.2]

theorem decSum_not_called (name : GoString) (calls : List HistCall)
    (h : name ∉ calls.map HistCall.name) : decSum name calls = 0 := by
  induction calls with
  | nil => rfl
  | cons c cs ih =>
    simp only [List.map_cons, List.mem_cons, not_or] at h
    cases c with
    | IncCounter n v => simp [decSum, ih h.2]
    | DecCounter n v =>
      have hn : ¬ n = name := fun e => h.1 e.symm
      simp [decSum, hn, ih h.2]

/-- One `IncCounter` or `DecCounter` call on an initialized registry: the cell of the
name moves by the value, in `int64`; every other cell is as before. -/
theorem HistCall.run_spec (c : HistCall) (st : State) (cm : counterMap)
    (hc : st.cMap = some cm) (hwf : cm.wf) :
    ∃ cm', c.run st = some { st with cMap := some cm' } ∧ cm'.wf
      ∧ (∀ k ∈ cm'.keys, k ∈ cm.keys ∨ k = 0 :: c.name)
      ∧ (∀ k, k ≠ 0 :: c.name → mapGet k cm'.m = mapGet k cm.m)
      ∧ mapGet (0 :: c.name) cm'.m
          = some { i := wrap64 (((mapGet (0 :: c.name) cm.m).getD newDataCounter).i
                      + (incSum c.name [c] - decSum c.name [c])) } := by
  cases c with
  | IncCounter name v =>
    obtain ⟨cm', hrun⟩ : ∃ cm', modifyCounter (some cm) name [] v incCounterValue = some cm' :=
      ⟨_, modifyCounter_some cm name [] v incCounterValue⟩
    have hwf' := modifyCounter_wf cm cm' name [] v _ hwf hrun
    have hkeys := modifyCounter_keys cm cm' name [] v _ hrun
    have hget := modifyCounter_get cm cm' name [] v _ hrun
    rw [encodeCounterKey_nil] at hkeys hget
    simp only [HistCall.name]
    refine ⟨cm', ?_, hwf', ?_, ?_, ?_⟩
    · show Glog.IncCounter st name v = _
      unfold Glog.IncCounter
      rw [IncTaggedCounter_some st cm name [] v hc, hrun]
      rfl
    · intro k hk
      rw [hkeys] at hk
      split at hk
      · exact Or.inl hk
      · rw [List.mem_append] at hk
        rcases hk with hk | hk
        · exact Or.inl hk
        · exact Or.inr (by simpa using hk)
    · intro k hk
      rw [hget, if_neg hk]
    · rw [hget, if_pos rfl]
      simp [HistCall.name, incSum, decSum, incCounterValue, dataCounter.increment]
  | DecCounter name v =>
    obtain ⟨cm', hrun⟩ : ∃ cm', modifyCounter (some cm) name [] v decCounterValue = some cm' :=
      ⟨_, modifyCounter_some cm name [] v decCounterValue⟩
    have hwf' := modifyCounter_wf cm cm' name [] v _ hwf hrun
    have hkeys := modifyCounter_keys cm cm' name [] v _ hrun
    have hget := modifyCounter_get cm cm' name [] v _ hrun
    rw [encodeCounterKey_nil] at hkeys hget
    simp only [HistCall.name]
    refine ⟨cm', ?_, hwf', ?_, ?_, ?_⟩
    · show Glog.DecCounter st name v = _
      unfold Glog.DecCounter
      rw [DecTaggedCounter_some st cm name [] v hc, hrun]
      rfl
    · intro k hk
      rw [hkeys] at hk
      split at hk
      · exact Or.inl hk
      · rw [List.mem_append] at hk
        rcases hk with hk | hk
        · exact Or.inl hk
        · exact Or.inr (by simpa using hk)
    · intro k hk
      rw [hget, if_neg hk]
    · rw [hget, if_pos rfl]
      simp only [HistCall.name, incSum, decSum, decCounterValue, dataCounter.decrement,
        wrap64_add_wrap64, if_true]
      congr 2
      ring_nf

theorem incSum_cons (name : GoString) (c : HistCall) (cs : List HistCall) :
    incSum name (c :: cs) = incSum name [c] + incSum name cs := by
  cases c <;> simp [incSum]

theorem decSum_cons (name : GoString) (c : HistCall) (cs : List HistCall) :
    decSum name (c :: cs) = decSum name [c] + decSum name cs := by
  cases c <;> simp [decSum]

/-- A sequence of `IncCounter` and `DecCounter` calls on an initialized registry
returns; the cell of every name called holds, in `int64`, its old value plus the
increments minus the decrements for that name; only keys of called names are added. -/
theorem runHistCalls_spec (calls : List HistCall) (st : State) (cm : counterMap)
    (hc : st.cMap = some cm) (hwf : cm.wf) :
    ∃ cm', runHistCalls calls st = some { st with cMap := some cm' } ∧ cm'.wf
      ∧ (∀ k ∈ cm'.keys, k ∈ cm.keys ∨ ∃ c ∈ calls, k = 0 :: HistCall.name c)
      ∧ (∀ name, mapGet (0 :: name) cm'.m
          = if name ∈ calls.map HistCall.name then
              some { i := wrap64 (((mapGet (0 :: name) cm.m).getD newDataCounter).i
                          + (incSum name calls - decSum name calls)) }
            else mapGet (0 :: name) cm.m) := by
  induction calls generalizing st cm with
  | nil =>
    refine ⟨cm, ?_, hwf, fun k hk => Or.inl hk, fun name => by simp⟩
    cases st
    simp only at hc
    subst hc
    rfl
  | cons c cs ih =>
    obtain ⟨cm1, hrun1, hwf1, hkeys1, hother1, hcell1⟩ := c.run_spec st cm hc hwf
    obtain ⟨cm', hrun, hwf', hkeys, hcell⟩ :=
      ih { st with cMap := some cm1 } cm1 rfl hwf1
    refine ⟨cm', ?_, hwf', ?_, ?_⟩
    · simp only [runHistCalls, hrun1, Option.some_bind, hrun]
    · intro k hk
      rcases hkeys k hk with h | ⟨c', hc', h⟩
      · rcases hkeys1 k h with h | h
        · exact Or.inl h
        · exact Or.inr ⟨c, by simp, h⟩
      · exact Or.inr ⟨c', List.mem_cons_of_mem _ hc', h⟩
    · intro name
      rw [hcell name, incSum_cons name c cs, decSum_cons name c cs]
      by_cases hn : name = c.name
      · subst hn
        have hin : HistCall.name c ∈ (c :: cs).map HistCall.name := by simp
        rw [if_pos hin, hcell1]
        by_cases hcs : HistCall.name c ∈ cs.map HistCall.name
        · rw [if_pos hcs]
          simp only [Option.getD_some, wrap64_wrap64_add]
          congr 2
          ring_nf
        · rw [if_neg hcs, incSum_not_called _ cs hcs, decSum_not_called _ cs hcs]
          simp
      · have hk : (0 :: name : GoString) ≠ 0 :: c.name := by
          intro e
          exact hn (List.cons.inj e).2
        have hnc : name ∉ [c].map HistCall.name := by simpa using hn
        rw [hother1 _ hk, incSum_not_called name [c] hnc, decSum_not_called name [c] hnc]
        have hiff : name ∈ (c :: cs).map HistCall.name ↔ name ∈ cs.map HistCall.name := by
          simp [hn]
        by_cases hcs : name ∈ cs.map HistCall.name
        · rw [if_pos hcs, if_pos (hiff.2 hcs)]
          simp
        · rw [if_neg hcs, if_neg (fun h => hcs (hiff.1 h))]

/-- The triples a drain writes for a name, in a registry whose keys carry no tags, are
the triples of the entries under the key of that name. -/
theorem filter_metricOf_untagged (name : GoString) (m : List (GoString × dataCounter))
    (h0 : ∀ kc ∈ m, ∃ n, kc.1 = 0 :: n) :
    (m.map metricOf).filter (fun mt => decide (mt.name = name))
      = (m.filter (fun kc => decide (kc.1 = 0 :: name))).map metricOf := by
  induction m with
  | nil => rfl
  | cons kc rest ih =>
    obtain ⟨k, c⟩ := kc
    obtain ⟨n, hn⟩ := h0 (k, c) (by simp)
    simp only at hn
    subst hn
    have hrest := ih (fun kc h => h0 kc (List.mem_cons_of_mem _ h))
    have hm : metricOf (0 :: n, c) = { name := n, tags := [], val := c.i } := by
      simp [metricOf, decodeCounterKey]
    simp only [List.map_cons, List.filter_cons, hm, hrest]
    by_cases hnn : n = name
    · subst hnn
      simp [hm]
    · simp [hnn]

/-! ### Export lemmas -/

/-- A `writeMetric` call appends its events to the trace, and changes nothing else. -/
theorem writeMetric_eq (st : State) (name : GoString) (tags : List GoString) (val : Int) :
    writeMetric st name tags val
      = { st with trace := st.trace
            ++ metricEvents st.ddCli { name := name, tags := tags, val := val } } := by
  unfold metricEvents writeMetric sendMetric logMetric Infof
  cases hd : st.ddCli <;> by_cases ht : tags.length = 0 <;> simp [hd, ht]

/-- The calls `writeMetric` for a list of triples append their events to the trace. -/
theorem writeMetrics_eq (ms : List Metric) (st : State) :
    writeMetrics st ms
      = { st with trace := st.trace ++ (ms.map (metricEvents st.ddCli)).flatten } := by
  induction ms generalizing st with
  | nil => simp [writeMetrics]
  | cons mt ms ih =>
    have h : writeMetrics st (mt :: ms)
        = writeMetrics (writeMetric st mt.name mt.tags mt.val) ms := rfl
    rw [h, ih, writeMetric_eq]
    simp

/-- The function `writeMemoryConsumption` appends events to the trace only. -/
theorem writeMemoryConsumption_eq (st : State) (mem : MemStats) :
    writeMemoryConsumption st mem
      = { st with trace := (writeMemoryConsumption st mem).trace } := by
  unfold writeMemoryConsumption
  simp only [writeMetric_eq]

/-- The loop of `writeHistogram` on keys that decode: every cell is set to 0, and the
triple of every entry is written, in iteration order. -/
theorem writeHistogramLoop_eq (m : List (GoString × dataCounter)) (st : State)
    (hdec : ∀ kc ∈ m, (decodeCounterKey kc.1).isSome = true) :
    writeHistogramLoop st m = some (zeroed m, writeMetrics st (m.map metricOf)) := by
  induction m generalizing st with
  | nil => rfl
  | cons kc rest ih =>
    obtain ⟨key, c⟩ := kc
    have hk := hdec (key, c) (by simp)
    obtain ⟨⟨name, tags⟩, hnt⟩ := Option.isSome_iff_exists.1 hk
    have hrest : ∀ kc ∈ rest, (decodeCounterKey kc.1).isSome = true :=
      fun kc h => hdec kc (List.mem_cons_of_mem _ h)
    simp only [] at hnt
    simp only [writeHistogramLoop, dataCounter.reset, hnt, ih _ hrest]
    simp [zeroed, writeMetrics, metricOf, hnt]

/-- The loop of `writePersistentCounter` on keys that decode: the triple of every
entry is written, in iteration order. -/
theorem writePersistentCounterLoop_eq (m : List (GoString × dataCounter)) (st : State)
    (hdec : ∀ kc ∈ m, (decodeCounterKey kc.1).isSome = true) :
    writePersistentCounterLoop st m = some (writeMetrics st (m.map metricOf)) := by
  induction m generalizing st with
  | nil => rfl
  | cons kc rest ih =>
    obtain ⟨key, c⟩ := kc
    have hk := hdec (key, c) (by simp)
    obtain ⟨⟨name, tags⟩, hnt⟩ := Option.isSome_iff_exists.1 hk
    have hrest : ∀ kc ∈ rest, (decodeCounterKey kc.1).isSome = true :=
      fun kc h => hdec kc (List.mem_cons_of_mem _ h)
    simp only [] at hnt
    simp only [writePersistentCounterLoop, dataCounter.read, hnt, ih _ hrest]
    simp [writeMetrics, metricOf, hnt]

/-- Every entry whose key decodes is reported by its triple. -/
theorem reports_metricOf (m : List (GoString × dataCounter))
    (hdec : ∀ kc ∈ m, (decodeCounterKey kc.1).isSome = true) :
    List.Forall₂ reports m (m.map metricOf) := by
  induction m with
  | nil => exact List.Forall₂.nil
  | cons kc rest ih =>
    have hk := hdec kc (by simp)
    obtain ⟨⟨name, tags⟩, hnt⟩ := Option.isSome_iff_exists.1 hk
    refine List.Forall₂.cons ?_ (ih (fun kc h => hdec kc (List.mem_cons_of_mem _ h)))
    simp [reports, metricOf, hnt]

/-- The keys of a well-formed registry decode, entry by entry. -/
theorem wf_decodes (cm : counterMap) (hwf : cm.wf) :
    ∀ kc ∈ cm.m, (decodeCounterKey kc.1).isSome = true :=
  fun kc h => hwf.2 kc.1 (List.mem_map_of_mem Prod.fst h)

theorem mapGet_zeroed (k : GoString) (m : List (GoString × dataCounter)) :
    mapGet k (zeroed m) = (mapGet k m).map (fun _ => ({ i := 0 } : dataCounter)) := by
  induction m with
  | nil => rfl
  | cons kc rest ih =>
    obtain ⟨k', c⟩ := kc
    unfold zeroed at ih ⊢
    simp only [List.map_cons, mapGet]
    by_cases h : k' = k
    · simp [h]
    · simp [h, ih]

theorem keys_zeroed (m : List (GoString × dataCounter)) :
    (zeroed m).map Prod.fst = m.map Prod.fst := by
  simp [zeroed]

/-- The function `writeHistogram` on an initialized, well-formed registry: every cell
is set to 0, the triple of every entry is written, then the memory figures. -/
theorem writeHistogram_eq (st : State) (cm : counterMap) (mem : MemStats)
    (hc : st.cMap = some cm) (hwf : cm.wf) :
    writeHistogram st mem
      = some (writeMemoryConsumption
          (writeMetrics { st with cMap := some { m := zeroed cm.m } } (cm.m.map metricOf))
          mem) := by
  unfold writeHistogram
  rw [hc]
  simp only [writeHistogramLoop_eq cm.m st (wf_decodes cm hwf)]
  rw [writeMetrics_eq, writeMetrics_eq]

/-- In a map, no entry is under a key that is absent. -/
theorem filter_key_absent (key : GoString) (m : List (GoString × dataCounter))
    (h : mapGet key m = none) : m.filter (fun kc => decide (kc.1 = key)) = [] := by
  rw [List.filter_eq_nil_iff]
  intro kc hkc hdec
  simp only [decide_eq_true_eq] at hdec
  exact (mapGet_eq_none_iff key m).1 h (hdec ▸ List.mem_map_of_mem Prod.fst hkc)

/-- The triples a drain writes under a name and a tag list are the triples of the
entries under the key that decodes to them. -/
theorem filter_metricOf_key (key name : GoString) (tags : List GoString)
    (m : List (GoString × dataCounter))
    (hdec : ∀ kc ∈ m, (decodeCounterKey kc.1).isSome = true)
    (hk : decodeCounterKey key = some (name, tags)) :
    (m.map metricOf).filter (fun mt => decide (mt.name = name ∧ mt.tags = tags))
      = (m.filter (fun kc => decide (kc.1 = key))).map metricOf := by
  induction m with
  | nil => rfl
  | cons kc rest ih =>
    obtain ⟨k, c⟩ := kc
    obtain ⟨⟨n, t⟩, hnt⟩ := Option.isSome_iff_exists.1 (hdec (k, c) (by simp))
    simp only at hnt
    have hrest := ih (fun kc h => hdec kc (List.mem_cons_of_mem _ h))
    have hm : metricOf (k, c) = { name := n, tags := t, val := c.i } := by
      simp [metricOf, hnt]
    have hiff : (n = name ∧ t = tags) ↔ k = key := by
      constructor
      · rintro ⟨rfl, rfl⟩
        exact decode_injective k key n t hnt hk
      · intro e
        rw [e, hk] at hnt
        simp only [Option.some.injEq, Prod.mk.injEq] at hnt
        exact ⟨hnt.1.symm, hnt.2.symm⟩
    simp only [List.map_cons, List.filter_cons, hm, hrest]
    by_cases hkk : k = key
    · have hb := hiff.2 hkk
      simp [hkk, hb.1, hb.2, hm]
      rw [← hkk, hm, hb.1, hb.2]
    · have hb : ¬ (n = name ∧ t = tags) := fun h => hkk (hiff.1 h)
      simp only [hkk, decide_False, Bool.false_eq_true, if_false]
      simp only [decide_eq_false hb, Bool.false_eq_true, if_false]

/-- The trace is all a `writeMetric` call changes, so `hLogOnce` is kept by the loops
of the drains. -/
theorem writeHistogramLoop_hLogOnce (m m' : List (GoString × dataCounter)) (st st' : State)
    (h : writeHistogramLoop st m = some (m', st')) : st'.hLogOnce = st.hLogOnce := by
  induction m generalizing st m' st' with
  | nil =>
    simp only [writeHistogramLoop, Option.some.injEq, Prod.mk.injEq] at h
    rw [← h.2]
  | cons kc rest ih =>
    obtain ⟨k, c⟩ := kc
    simp only [writeHistogramLoop] at h
    split at h
    · exact absurd h (by simp)
    · split at h
      · exact absurd h (by simp)
      · rename_i hrec
        simp only [Option.some.injEq, Prod.mk.injEq] at h
        rw [← h.2, ih _ _ _ hrec, writeMetric_eq]

theorem writePersistentCounterLoop_hLogOnce (m : List (GoString × dataCounter))
    (st st' : State) (h : writePersistentCounterLoop st m = some st') :
    st'.hLogOnce = st.hLogOnce := by
  induction m generalizing st st' with
  | nil =>
    simp only [writePersistentCounterLoop, Option.some.injEq] at h
    rw [← h]
  | cons kc rest ih =>
    obtain ⟨k, c⟩ := kc
    simp only [writePersistentCounterLoop] at h
    split at h
    · exact absurd h (by simp)
    · rw [ih _ _ h, writeMetric_eq]

/-- No entry point resets `hLogOnce`. -/
theorem EntryPoint.call_hLogOnce (ep : EntryPoint) (st st' : State) (name : GoString)
    (tags : List GoString) (value : Int) (h : ep.call st name tags value = some st') :
    st'.hLogOnce = st.hLogOnce := by
  cases ep <;>
    simp only [EntryPoint.call, Glog.IncCounter, Glog.IncTaggedCounter, Glog.DecCounter,
      Glog.DecTaggedCounter, Glog.SetCounter, Glog.SetTaggedCounter, Glog.IncPCounter,
      Glog.IncTaggedPCounter, Glog.DecPCounter, Glog.DecTaggedPCounter, Glog.SetPCounter,
      Glog.SetTaggedPCounter, Errorf] at h <;>
    split at h <;>
    first
    | (simp only [Option.some.injEq] at h; rw [← h])
    | (simp only [Option.map_eq_some'] at h
       obtain ⟨cm, _, rfl⟩ := h
       rfl)

/-- No step of a run resets `hLogOnce`. -/
theorem Op.run_hLogOnce (op : Op) (st st' : State) (h : op.run st = some st')
    (hl : st.hLogOnce = true) : st'.hLogOnce = true := by
  cases op with
  | counter ep name tags value =>
    rw [EntryPoint.call_hLogOnce ep st st' name tags value h, hl]
  | writeHistogram mem =>
    simp only [Op.run, Glog.writeHistogram] at h
    split at h
    · exact absurd h (by simp)
    · split at h
      · exact absurd h (by simp)
      · rename_i hloop
        simp only [Option.some.injEq] at h
        rw [← h, writeMemoryConsumption_eq]
        simp only
        rw [writeHistogramLoop_hLogOnce _ _ _ _ hloop, hl]
  | writePersistentCounter =>
    simp only [Op.run, Glog.writePersistentCounter] at h
    split at h
    · exact absurd h (by simp)
    · rw [writePersistentCounterLoop_hLogOnce _ _ _ h, hl]
  | ResetPersistentCounter =>
    simp only [Op.run, Glog.ResetPersistentCounter] at h
    split at h
    · exact absurd h (by simp)
    · simp only [Option.some.injEq] at h
      rw [← h]
      exact hl
  | StartHistogramLogging =>
    simp only [Op.run, Option.some.injEq] at h
    rw [← h]
    unfold Glog.StartHistogramLogging
    rw [if_pos hl]
    exact hl
  | SetLogInterval l =>
    simp only [Op.run, Option.some.injEq] at h
    rw [← h]
    exact hl

/-- A run that starts with `hLogOnce` set ends with `hLogOnce` set. -/
theorem runOps_hLogOnce (ops : List Op) (st st' : State) (h : runOps ops st = some st')
    (hl : st.hLogOnce = true) : st'.hLogOnce = true := by
  induction ops generalizing st with
  | nil =>
    simp only [runOps, Option.some.injEq] at h
    rw [← h]
    exact hl
  | cons op ops ih =>
    simp only [runOps] at h
    cases hop : op.run st with
    | none => rw [hop] at h; exact absurd h (by simp)
    | some s1 =>
      rw [hop] at h
      exact ih s1 h (Op.run_hLogOnce op st s1 hop hl)

/-- The first call of `StartHistogramLogging` sets `hLogOnce`. -/
theorem StartHistogramLogging_hLogOnce (st : State) :
    (StartHistogramLogging st).hLogOnce = true := by
  unfold StartHistogramLogging
  by_cases hl : st.hLogOnce = true
  · rw [if_pos hl]; exact hl
  · rw [if_neg hl]
    simp only [initPeriodicLogger, Infof]
    split <;> rfl

/-! ### Lemmas of the later claims -/

/-- Run one after the other, the two halves of `reset` are `reset`. -/
theorem reset_halves (d : dataCounter) : (d.resetLoad, d.resetStore) = d.reset := rfl

/-- The pieces of a split hold no separator. -/
theorem stringsSplit_sepFree (s : GoString) : sepFree (stringsSplit s separator) := by
  induction s with
  | nil =>
    intro t ht
    simp only [stringsSplit, List.mem_singleton] at ht
    subst ht
    simp
  | cons c cs ih =>
    unfold stringsSplit
    by_cases hc : c = separator
    · rw [if_pos hc]
      intro t ht
      rcases List.mem_cons.1 ht with h | h
      · subst h; simp
      · exact ih t h
    · rw [if_neg hc]
      cases hs : stringsSplit cs separator with
      | nil => exact absurd hs (stringsSplit_ne_nil cs separator)
      | cons h tl =>
        rw [hs] at ih
        intro t ht
        rcases List.mem_cons.1 ht with e | e
        · subst e
          intro hmem
          rcases List.mem_cons.1 hmem with e1 | e1
          · exact hc e1.symm
          · exact ih h (by simp) e1
        · exact ih t (List.mem_cons_of_mem _ e)

/-- The tags a key decodes to hold no separator. -/
theorem decode_tags_sepFree (key name : GoString) (tags : List GoString)
    (h : decodeCounterKey key = some (name, tags)) : sepFree tags := by
  cases key with
  | nil => simp [decodeCounterKey] at h
  | cons m rest =>
    simp only [decodeCounterKey] at h
    split at h
    · simp only [Option.some.injEq, Prod.mk.injEq] at h
      rw [← h.2]
      intro t ht
      simp at ht
    · split at h
      · exact absurd h (by simp)
      · simp only [Option.some.injEq, Prod.mk.injEq] at h
        rw [← h.2]
        exact stringsSplit_sepFree _

/-- A key with tags that decodes to its own name has a name that fits the marker. -/
theorem decode_encode_bound (name t : GoString) (ts tags : List GoString)
    (h : decodeCounterKey (encodeCounterKey name (t :: ts)) = some (name, tags))
    (hne : tags ≠ []) : name.length + 1 < 256 := by
  rw [encodeCounterKey_tags] at h
  by_cases hm : (name.length + 1) % 256 = 0
  · simp only [decodeCounterKey, hm, if_true, Option.some.injEq, Prod.mk.injEq] at h
    exact absurd h.2.symm hne
  · have hle := decode_name_length _ name tags _ _ rfl hm h
    have hlt : (name.length + 1) % 256 < 256 := Nat.mod_lt _ (by decide)
    omega

/-- The tags as the loop of `encodeCounterKey` lays them out are the tags joined with
the separator. -/
theorem joinTags_eq_intercalate (tags : List GoString) :
    joinTags tags = List.intercalate [separator] tags := by
  cases tags with
  | nil => rfl
  | cons t ts =>
    rw [joinTags_cons]
    induction ts generalizing t with
    | nil => simp [List.intercalate]
    | cons u us ih =>
      have h := ih u
      simp only [List.intercalate, List.intersperse, List.map_cons, List.flatten_cons,
        List.singleton_append] at h ⊢
      rw [← h]
      simp

/-- The keys of a registry stay under `modifyCounter`. -/
theorem modifyCounter_keys_subset (cm cm' : counterMap) (name : GoString)
    (tags : List GoString) (value : Int) (modify : dataCounter → Int → dataCounter)
    (h : modifyCounter (some cm) name tags value modify = some cm') :
    cm.keys ⊆ cm'.keys := by
  rw [modifyCounter_keys cm cm' name tags value modify h]
  split
  · exact fun _ h => h
  · exact List.subset_append_left _ _

/-- A `modifyCounter` call on the resettable registry of a state with both registries:
the persistent registry is as before, the resettable one keeps its keys. -/
theorem modify_cMap_spec (st : State) (cm pm : counterMap) (name : GoString)
    (tags : List GoString) (value : Int) (modify : dataCounter → Int → dataCounter)
    (hc : st.cMap = some cm) (hp : st.pcMap = some pm) (hwf : cm.wf) :
    ∃ cm', (modifyCounter st.cMap name tags value modify).map
          (fun x => { st with cMap := some x })
        = some { st with cMap := some cm', pcMap := some pm }
      ∧ cm'.wf ∧ cm.keys ⊆ cm'.keys := by
  rw [hc]
  obtain ⟨cm', hrun⟩ : ∃ cm', modifyCounter (some cm) name tags value modify = some cm' :=
    ⟨_, modifyCounter_some cm name tags value modify⟩
  refine ⟨cm', ?_, modifyCounter_wf cm cm' name tags value modify hwf hrun,
    modifyCounter_keys_subset cm cm' name tags value modify hrun⟩
  rw [hrun, ← hp]
  rfl

/-- A `modifyCounter` call on the persistent registry of a state with both registries:
the resettable registry is as before, the persistent one keeps its keys. -/
theorem modify_pcMap_spec (st : State) (cm pm : counterMap) (name : GoString)
    (tags : List GoString) (value : Int) (modify : dataCounter → Int → dataCounter)
    (hc : st.cMap = some cm) (hp : st.pcMap = some pm) (hwf : pm.wf) :
    ∃ pm', (modifyCounter st.pcMap name tags value modify).map
          (fun x => { st with pcMap := some x })
        = some { st with cMap := some cm, pcMap := some pm' }
      ∧ pm'.wf ∧ pm.keys ⊆ pm'.keys := by
  rw [hp]
  obtain ⟨pm', hrun⟩ : ∃ pm', modifyCounter (some pm) name tags value modify = some pm' :=
    ⟨_, modifyCounter_some pm name tags value modify⟩
  refine ⟨pm', ?_, modifyCounter_wf pm pm' name tags value modify hwf hrun,
    modifyCounter_keys_subset pm pm' name tags value modify hrun⟩
  rw [hrun, ← hc]
  rfl

/-- An entry point in a state with both registries: it returns; the registry it does
not address is as before, the one it addresses is well formed and keeps its keys. -/
theorem EntryPoint.call_both (ep : EntryPoint) (st : State) (cm pm : counterMap)
    (name : GoString) (tags : List GoString) (value : Int)
    (hc : st.cMap = some cm) (hp : st.pcMap = some pm) (hwfc : cm.wf) (hwfp : pm.wf) :
    ∃ cm' pm', ep.call st name tags value
          = some { st with cMap := some cm', pcMap := some pm' }
      ∧ cm'.wf ∧ pm'.wf ∧ cm.keys ⊆ cm'.keys ∧ pm.keys ⊆ pm'.keys
      ∧ (ep.isPersistent = true → cm' = cm)
      ∧ (ep.isPersistent = false → pm' = pm) := by
  have hcn : st.cMap.isNone = false := by rw [hc]; rfl
  have hpn : st.pcMap.isNone = false := by rw [hp]; rfl
  have sub : ∀ l : List GoString, l ⊆ l := fun _ _ h => h
  cases ep
  case IncCounter =>
    obtain ⟨cm', h, w, k⟩ := modify_cMap_spec st cm pm name [] value incCounterValue hc hp hwfc
    exact ⟨cm', pm, by simp only [EntryPoint.call, Glog.IncCounter, Glog.IncTaggedCounter, hcn,
      Bool.false_eq_true, if_false, h], w, hwfp, k, sub _, by simp [EntryPoint.isPersistent],
      fun _ => rfl⟩
  case IncTaggedCounter =>
    obtain ⟨cm', h, w, k⟩ := modify_cMap_spec st cm pm name tags value incCounterValue hc hp hwfc
    exact ⟨cm', pm, by simp only [EntryPoint.call, Glog.IncTaggedCounter, hcn,
      Bool.false_eq_true, if_false, h], w, hwfp, k, sub _, by simp [EntryPoint.isPersistent],
      fun _ => rfl⟩
  case DecCounter =>
    obtain ⟨cm', h, w, k⟩ := modify_cMap_spec st cm pm name [] value decCounterValue hc hp hwfc
    exact ⟨cm', pm, by simp only [EntryPoint.call, Glog.DecCounter, Glog.DecTaggedCounter, hcn,
      Bool.false_eq_true, if_false, h], w, hwfp, k, sub _, by simp [EntryPoint.isPersistent],
      fun _ => rfl⟩
  case DecTaggedCounter =>
    obtain ⟨cm', h, w, k⟩ := modify_cMap_spec st cm pm name tags value decCounterValue hc hp hwfc
    exact ⟨cm', pm, by simp only [EntryPoint.call, Glog.DecTaggedCounter, hcn,
      Bool.false_eq_true, if_false, h], w, hwfp, k, sub _, by simp [EntryPoint.isPersistent],
      fun _ => rfl⟩
  case SetCounter =>
    obtain ⟨cm', h, w, k⟩ := modify_cMap_spec st cm pm name [] value setCounterValue hc hp hwfc
    exact ⟨cm', pm, by simp only [EntryPoint.call, Glog.SetCounter, Glog.SetTaggedCounter, hcn,
      Bool.false_eq_true, if_false, h], w, hwfp, k, sub _, by simp [EntryPoint.isPersistent],
      fun _ => rfl⟩
  case SetTaggedCounter =>
    obtain ⟨cm', h, w, k⟩ := modify_cMap_spec st cm pm name tags value setCounterValue hc hp hwfc
    exact ⟨cm', pm, by simp only [EntryPoint.call, Glog.SetTaggedCounter, hcn,
      Bool.false_eq_true, if_false, h], w, hwfp, k, sub _, by simp [EntryPoint.isPersistent],
      fun _ => rfl⟩
  case IncPCounter =>
    obtain ⟨pm', h, w, k⟩ := modify_pcMap_spec st cm pm name [] value incCounterValue hc hp hwfp
    exact ⟨cm, pm', by simp only [EntryPoint.call, Glog.IncPCounter, Glog.IncTaggedPCounter, hpn,
      Bool.false_eq_true, if_false, h], hwfc, w, sub _, k, fun _ => rfl,
      by simp [EntryPoint.isPersistent]⟩
  case IncTaggedPCounter =>
    obtain ⟨pm', h, w, k⟩ := modify_pcMap_spec st cm pm name tags value incCounterValue hc hp hwfp
    exact ⟨cm, pm', by simp only [EntryPoint.call, Glog.IncTaggedPCounter, hpn,
      Bool.false_eq_true, if_false, h], hwfc, w, sub _, k, fun _ => rfl,
      by simp [EntryPoint.isPersistent]⟩
  case DecPCounter =>
    obtain ⟨pm', h, w, k⟩ := modify_pcMap_spec st cm pm name [] value decCounterValue hc hp hwfp
    exact ⟨cm, pm', by simp only [EntryPoint.call, Glog.DecPCounter, Glog.DecTaggedPCounter, hpn,
      Bool.false_eq_true, if_false, h], hwfc, w, sub _, k, fun _ => rfl,
      by simp [EntryPoint.isPersistent]⟩
  case DecTaggedPCounter =>
    obtain ⟨pm', h, w, k⟩ := modify_pcMap_spec st cm pm name tags value decCounterValue hc hp hwfp
    exact ⟨cm, pm', by simp only [EntryPoint.call, Glog.DecTaggedPCounter, hpn,
      Bool.false_eq_true, if_false, h], hwfc, w, sub _, k, fun _ => rfl,
      by simp [EntryPoint.isPersistent]⟩
  case SetPCounter =>
    obtain ⟨pm', h, w, k⟩ := modify_pcMap_spec st cm pm name [] value setCounterValue hc hp hwfp
    exact ⟨cm, pm', by simp only [EntryPoint.call, Glog.SetPCounter, Glog.SetTaggedPCounter, hcn,
      Bool.false_eq_true, if_false, h], hwfc, w, sub _, k, fun _ => rfl,
      by simp [EntryPoint.isPersistent]⟩
  case SetTaggedPCounter =>
    obtain ⟨pm', h, w, k⟩ := modify_pcMap_spec st cm pm name tags value setCounterValue hc hp hwfp
    exact ⟨cm, pm', by simp only [EntryPoint.call, Glog.SetTaggedPCounter, hcn,
      Bool.false_eq_true, if_false, h], hwfc, w, sub _, k, fun _ => rfl,
      by simp [EntryPoint.isPersistent]⟩

/-- The registry with every cell at 0 is well formed when the registry is. -/
theorem zeroed_wf (cm : counterMap) (hwf : cm.wf) : ({ m := zeroed cm.m } : counterMap).wf := by
  unfold counterMap.wf counterMap.keys
  rw [keys_zeroed]
  exact hwf

/-- Every triple written for a registry with every cell at 0 has the value 0. -/
theorem metricOf_zeroed_val (m : List (GoString × dataCounter)) :
    ∀ mt ∈ (zeroed m).map metricOf, mt.val = 0 := by
  intro mt hmt
  simp only [zeroed, List.map_map, List.mem_map, Function.comp] at hmt
  obtain ⟨kc, _, rfl⟩ := hmt
  unfold metricOf
  split <;> rfl

/-- What `ResetPersistentCounter` stores is the registry with every cell at 0. -/
theorem ResetPersistentCounter_eq (st : State) (pm : counterMap) (hp : st.pcMap = some pm) :
    ResetPersistentCounter st = some { st with pcMap := some { m := zeroed pm.m } } := by
  unfold ResetPersistentCounter
  rw [hp]
  rfl

/-- The function `writePersistentCounter` on an initialized, well-formed registry. -/
theorem writePersistentCounter_eq (st : State) (pm : counterMap)
    (hp : st.pcMap = some pm) (hwf : pm.wf) :
    writePersistentCounter st = some (writeMetrics st (pm.m.map metricOf)) := by
  unfold writePersistentCounter
  rw [hp]
  exact writePersistentCounterLoop_eq pm.m st (wf_decodes pm hwf)

/-- Drains in a row leave the registries as they are. -/
theorem repeat_writePersistentCounter (n : Nat) (st : State) (pm : counterMap)
    (hp : st.pcMap = some pm) (hwf : pm.wf) :
    ∃ stn, repeatCall writePersistentCounter n st = some stn
      ∧ stn.pcMap = some pm ∧ stn.cMap = st.cMap ∧ stn.hLogOnce = st.hLogOnce := by
  induction n generalizing st with
  | zero => exact ⟨st, rfl, hp, rfl, rfl⟩
  | succ n ih =>
    have hs : (writeMetrics st (pm.m.map metricOf)).pcMap = some pm := by
      rw [writeMetrics_eq]; exact hp
    obtain ⟨stn, h1, h2, h3, h4⟩ := ih _ hs
    refine ⟨stn, ?_, h2, ?_, ?_⟩
    · simp only [repeatCall, writePersistentCounter_eq st pm hp hwf, Option.some_bind, h1]
    · rw [h3, writeMetrics_eq]
    · rw [h4, writeMetrics_eq]

/-- The fields of the state after `writeHistogram` on a well-formed registry. -/
theorem writeHistogram_fields (st : State) (cm : counterMap) (mem : MemStats)
    (hc : st.cMap = some cm) (hwf : cm.wf) :
    ∃ st', writeHistogram st mem = some st'
      ∧ st'.cMap = some { m := zeroed cm.m } ∧ st'.pcMap = st.pcMap
      ∧ st'.hLogOnce = st.hLogOnce := by
  refine ⟨_, writeHistogram_eq st cm mem hc hwf, ?_, ?_, ?_⟩ <;>
    rw [writeMemoryConsumption_eq, writeMetrics_eq]

/-- The fields of the state after `writePersistentCounter` on a well-formed registry. -/
theorem writePersistentCounter_fields (st : State) (pm : counterMap)
    (hp : st.pcMap = some pm) (hwf : pm.wf) :
    ∃ st', writePersistentCounter st = some st'
      ∧ st'.cMap = st.cMap ∧ st'.pcMap = st.pcMap ∧ st'.hLogOnce = st.hLogOnce := by
  refine ⟨_, writePersistentCounter_eq st pm hp hwf, ?_, ?_, ?_⟩ <;> rw [writeMetrics_eq]

/-! ### Rendering lemmas -/

theorem digitChar_toNat (d : Nat) (h : d < 10) : (Nat.digitChar d).toNat = d + 48 := by
  interval_cases d <;> rfl

/-- With enough fuel, the digit loop of the library puts the decimal digits of a
positive number, most significant first, before the accumulator. -/
theorem toDigitsCore_eq (fuel : Nat) : ∀ (n : Nat) (ds : List Char), 0 < n → n < fuel →
    Nat.toDigitsCore 10 fuel n ds
      = ((Nat.digits 10 n).reverse.map Nat.digitChar) ++ ds := by
  induction fuel with
  | zero => intro n ds _ h; omega
  | succ f ih =>
    intro n ds hn hf
    rw [Nat.digits_def' (by decide) hn]
    simp only [Nat.toDigitsCore]
    by_cases h0 : n / 10 = 0
    · rw [if_pos h0, h0]
      simp
    · rw [if_neg h0]
      have hlt : n / 10 < n := Nat.div_lt_self hn (by decide)
      rw [ih (n / 10) _ (Nat.pos_of_ne_zero h0) (by omega)]
      simp

theorem natRepr_bytes (n : Nat) :
    bytes (Nat.repr n)
      = if n = 0 then [48] else (Nat.digits 10 n).reverse.map (fun d => d + 48) := by
  by_cases h : n = 0
  · subst h
    rfl
  · rw [if_neg h]
    simp only [bytes, Nat.repr, Nat.toDigits, List.asString]
    rw [toDigitsCore_eq (n + 1) n [] (Nat.pos_of_ne_zero h) (by omega)]
    simp only [List.append_nil, String.toList, List.map_map, List.map_reverse]
    congr 1
    apply List.map_congr_left
    intro d hd
    exact digitChar_toNat d (Nat.digits_lt_base (by decide) hd)

/-- The verb `%d` writes the signed decimal numeral. -/
theorem fmtInt_eq_decimal (v : Int) : fmtInt v = decimal v := by
  unfold fmtInt decimal
  cases v with
  | ofNat m =>
    have h1 : ¬ (Int.ofNat m < 0) := by simp
    rw [if_neg h1]
    show bytes (Nat.repr m) = _
    rw [natRepr_bytes]
    simp
  | negSucc m =>
    have h1 : Int.negSucc m < 0 := Int.negSucc_lt_zero m
    have h2 : ¬ (Int.negSucc m = 0) := by simp
    rw [if_pos h1, if_neg h2]
    show bytes ("-" ++ Nat.repr (m + 1)) = _
    have hb : bytes ("-" ++ Nat.repr (m + 1)) = [45] ++ bytes (Nat.repr (m + 1)) := by
      simp [bytes, String.toList, String.data_append]
    rw [hb, natRepr_bytes]
    simp [Int.natAbs]

/-- The verb `%v` writes the tags between brackets, separated by one space. -/
theorem fmtTags_eq (tags : List GoString) :
    fmtTags tags = [91] ++ List.intercalate [32] tags ++ [93] := rfl

/-- The reference line of the tests: `test2: -1` and `test1#[a:1 b:2]: 10`. -/
theorem referenceLine_tests :
    referenceLine (bytes "test2") [] (-1) = bytes "test2: -1\n"
      ∧ referenceLine (bytes "test1") [bytes "a:1", bytes "b:2"] 10
          = bytes "test1#[a:1 b:2]: 10\n" := by
  constructor <;> simp [referenceLine, decimal, bytes, List.intercalate]

/-! ### Lemmas on runs after setup -/

/-- The marker byte of an encoded key is at most the length of the key. -/
theorem encode_marker_le (name : GoString) (tags : List GoString) :
    ∃ m rest, encodeCounterKey name tags = m :: rest ∧ m ≤ (m :: rest).length := by
  cases tags with
  | nil => exact ⟨0, name, encodeCounterKey_nil name, Nat.zero_le _⟩
  | cons t ts =>
    refine ⟨_, _, encodeCounterKey_tags name t ts, ?_⟩
    have hle : (name.length + 1) % 256 ≤ name.length + 1 := Nat.mod_le _ _
    simp only [List.length_cons, List.length_append]
    omega

/-- The first `StartHistogramLogging` leaves a state after setup, with two empty
registries. -/
theorem StartHistogramLogging_ready (st : State) (h : st.hLogOnce = false) :
    (StartHistogramLogging st).ready := by
  have hl : ¬ st.hLogOnce = true := by rw [h]; decide
  unfold StartHistogramLogging State.ready
  rw [if_neg hl]
  simp only [initPeriodicLogger, Infof]
  split <;> exact ⟨rfl, ⟨newCounterMap, rfl, newCounterMap_wf⟩, ⟨newCounterMap, rfl, newCounterMap_wf⟩⟩

/-- Every step in a state after setup returns a state after setup. -/
theorem Op.run_ready (op : Op) (st : State) (hr : st.ready) :
    ∃ st', op.run st = some st' ∧ st'.ready := by
  obtain ⟨hl, ⟨cm, hc, hwfc⟩, ⟨pm, hp, hwfp⟩⟩ := hr
  cases op with
  | counter ep name tags value =>
    obtain ⟨cm', pm', hrun, w1, w2, -, -, -, -⟩ :=
      ep.call_both st cm pm name tags value hc hp hwfc hwfp
    exact ⟨_, hrun, ⟨hl, ⟨cm', rfl, w1⟩, ⟨pm', rfl, w2⟩⟩⟩
  | writeHistogram mem =>
    obtain ⟨st', hrun, h1, h2, h3⟩ := writeHistogram_fields st cm mem hc hwfc
    exact ⟨st', hrun, ⟨by rw [h3, hl], ⟨_, h1, zeroed_wf cm hwfc⟩, ⟨pm, by rw [h2, hp], hwfp⟩⟩⟩
  | writePersistentCounter =>
    obtain ⟨st', hrun, h1, h2, h3⟩ := writePersistentCounter_fields st pm hp hwfp
    exact ⟨st', hrun, ⟨by rw [h3, hl], ⟨cm, by rw [h1, hc], hwfc⟩, ⟨pm, by rw [h2, hp], hwfp⟩⟩⟩
  | ResetPersistentCounter =>
    exact ⟨_, ResetPersistentCounter_eq st pm hp,
      ⟨hl, ⟨cm, hc, hwfc⟩, ⟨_, rfl, zeroed_wf pm hwfp⟩⟩⟩
  | StartHistogramLogging =>
    have h : Glog.StartHistogramLogging st = st := by
      unfold Glog.StartHistogramLogging
      rw [if_pos hl]
    exact ⟨st, by simp only [Op.run, h], ⟨hl, ⟨cm, hc, hwfc⟩, ⟨pm, hp, hwfp⟩⟩⟩
  | SetLogInterval l =>
    exact ⟨_, rfl, ⟨hl, ⟨cm, hc, hwfc⟩, ⟨pm, hp, hwfp⟩⟩⟩

/-- Every run from a state after setup returns a state after setup. -/
theorem runOps_ready (ops : List Op) (st : State) (hr : st.ready) :
    ∃ st', runOps ops st = some st' ∧ st'.ready := by
  induction ops generalizing st with
  | nil => exact ⟨st, rfl, hr⟩
  | cons op ops ih =>
    obtain ⟨s1, h1, r1⟩ := op.run_ready st hr
    obtain ⟨st', h2, r2⟩ := ih s1 r1
    exact ⟨st', by simp only [runOps, h1, Option.some_bind, h2], r2⟩

/-! ### Lemmas on what reaches the sinks -/

/-- The function `logMetric` hands the logger the reference line. -/
theorem logMetric_referenceLine (st : State) (name : GoString) (tags : List GoString)
    (val : Int) :
    logMetric st name tags val
      = { st with trace := st.trace ++ [Event.Infof (referenceLine name tags val)] } := by
  unfold logMetric referenceLine Infof
  rw [fmtInt_eq_decimal, fmtTags_eq]
  cases tags with
  | nil => simp [bytes]
  | cons t ts => simp [bytes]

/-- The calls of one `writeMetric` are the emission of its triple. -/
theorem metricEvents_eq_emission (ddCli : Bool) (mt : Metric) :
    metricEvents ddCli mt = emission ddCli mt := by
  unfold metricEvents writeMetric sendMetric emission
  rw [logMetric_referenceLine]
  cases ddCli <;> simp

/-- The calls `writeMetric` for a list of triples append the emissions of the triples
to the trace and change nothing else. -/
theorem writeMetrics_trace (ms : List Metric) (st : State) :
    writeMetrics st ms = { st with trace := st.trace ++ emissions st.ddCli ms } := by
  rw [writeMetrics_eq]
  unfold emissions
  have h : metricEvents st.ddCli = emission st.ddCli :=
    funext (metricEvents_eq_emission st.ddCli)
  rw [h]

/-- The function `writeMemoryConsumption` writes the five memory triples. -/
theorem writeMemoryConsumption_triples (st : State) (mem : MemStats) :
    writeMemoryConsumption st mem = writeMetrics st (memoryTriples mem) := rfl

theorem emissions_append (ddCli : Bool) (xs ys : List Metric) :
    emissions ddCli (xs ++ ys) = emissions ddCli xs ++ emissions ddCli ys := by
  simp [emissions]

/-- The function `writeHistogram` on an initialized, well-formed registry: the cells
are set to 0 and the trace gets the emissions of the triples of the entries, then of
the memory triples; nothing else changes. -/
theorem writeHistogram_trace (st : State) (cm : counterMap) (mem : MemStats)
    (hc : st.cMap = some cm) (hwf : cm.wf) :
    writeHistogram st mem
      = some { st with
          cMap := some { m := zeroed cm.m }
          trace := st.trace ++ emissions st.ddCli (cm.m.map metricOf ++ memoryTriples mem) } := by
  rw [writeHistogram_eq st cm mem hc hwf, writeMemoryConsumption_triples,
    writeMetrics_trace, writeMetrics_trace, emissions_append]
  simp

/-- The function `writePersistentCounter` on an initialized, well-formed registry: the
trace gets the emissions of the triples of the entries; nothing else changes. -/
theorem writePersistentCounter_trace (st : State) (pm : counterMap)
    (hp : st.pcMap = some pm) (hwf : pm.wf) :
    writePersistentCounter st
      = some { st with trace := st.trace ++ emissions st.ddCli (pm.m.map metricOf) } := by
  rw [writePersistentCounter_eq st pm hp hwf, writeMetrics_trace]

/-- In a map, an entry is what a read of its key returns. -/
theorem mapGet_of_mem (key : GoString) (c : dataCounter) (m : List (GoString × dataCounter))
    (hnd : (m.map Prod.fst).Nodup) (h : (key, c) ∈ m) : mapGet key m = some c := by
  induction m with
  | nil => simp at h
  | cons kc rest ih =>
    obtain ⟨k', c'⟩ := kc
    simp only [List.map_cons, List.nodup_cons] at hnd
    simp only [mapGet]
    rcases List.mem_cons.1 h with e | e
    · simp only [Prod.mk.injEq] at e
      rw [if_pos e.1.symm, e.2]
    · have hk : ¬ k' = key := by
        intro e2
        exact hnd.1 (e2 ▸ List.mem_map_of_mem Prod.fst e)
      rw [if_neg hk]
      exact ih hnd.2 e

/-- Among the triples a drain writes for a well-formed registry, each is the only one
under its name and tag list. -/
theorem filter_loop_unique (cm : counterMap) (hwf : cm.wf) (mt : Metric)
    (h : mt ∈ cm.m.map metricOf) :
    (cm.m.map metricOf).filter (fun x => decide (x.name = mt.name ∧ x.tags = mt.tags))
      = [mt] := by
  obtain ⟨kc, hkc, rfl⟩ := List.mem_map.1 h
  obtain ⟨k, c⟩ := kc
  have hdec := wf_decodes cm hwf
  obtain ⟨⟨n, t⟩, hnt⟩ := Option.isSome_iff_exists.1 (hdec (k, c) hkc)
  simp only at hnt
  have hm : metricOf (k, c) = { name := n, tags := t, val := c.i } := by
    simp [metricOf, hnt]
  rw [hm]
  simp only
  rw [filter_metricOf_key k n t cm.m hdec hnt,
    filter_key_eq k c cm.m hwf.1 (mapGet_of_mem k c cm.m hwf.1 hkc)]
  simp [hm]

/-- No memory triple carries a name outside the five memory names. -/
theorem filter_memory_nil (mem : MemStats) (p : Metric → Bool)
    (h : ∀ x, p x = true → x.name ∉ memoryNames) :
    (memoryTriples mem).filter p = [] := by
  rw [List.filter_eq_nil_iff]
  intro x hx hp
  apply h x hp
  simp only [memoryTriples, List.mem_cons, List.mem_singleton, List.not_mem_nil, or_false] at hx
  rcases hx with e | e | e | e | e <;> subst e <;> simp [memoryNames]

/-- A name no `IncCounter` call carries has the increment sum 0. -/
theorem incSum_no_inc (name : GoString) (calls : List HistCall)
    (h : ∀ v, HistCall.IncCounter name v ∉ calls) : incSum name calls = 0 := by
  induction calls with
  | nil => rfl
  | cons c cs ih =>
    have hcs : ∀ v, HistCall.IncCounter name v ∉ cs :=
      fun v hv => h v (List.mem_cons_of_mem _ hv)
    cases c with
    | IncCounter n v =>
      have hn : ¬ n = name := by
        intro e
        exact h v (by rw [e]; simp)
      simp [incSum, hn, ih hcs]
    | DecCounter n v => simp [incSum, ih hcs]

/-- The negation of a positive `int64` magnitude is a negative `int64`. -/
theorem wrap64_neg_of_pos (d : Int) (h0 : 0 < d) (h1 : d ≤ 2 ^ 63) : wrap64 (0 - d) < 0 := by
  unfold wrap64
  norm_num at h1 ⊢
  omega

/-! ## Claims on the codec -/

/-- C1: for every name with `len(name)+1 < 255` and every tag list whose tags are free
of the separator, decoding the encoded key returns exactly the name and the tags in
their order; with the empty tag list it returns the name and an empty tag list. -/
theorem C1_decode_encode_bounded (name : GoString) (tags : List GoString)
    (hlen : name.length + 1 < 255) (hsep : sepFree tags) :
    decodeCounterKey (encodeCounterKey name tags) = some (name, tags)
      ∧ decodeCounterKey (encodeCounterKey name []) = some (name, []) :=
  ⟨decode_encode name tags (by omega) hsep, decode_encode_nil name⟩

/-- C1 at the key of the test: name `metric`, tags `a:1` and `b:2`. -/
theorem C1_decode_encode_bounded_witness :
    decodeCounterKey (encodeCounterKey [109, 101, 116, 114, 105, 99]
        [[97, 58, 49], [98, 58, 50]])
      = some ([109, 101, 116, 114, 105, 99], [[97, 58, 49], [98, 58, 50]])
    ∧ decodeCounterKey (encodeCounterKey [109, 101, 116, 114, 105, 99] [])
      = some ([109, 101, 116, 114, 105, 99], []) :=
  C1_decode_encode_bounded [109, 101, 116, 114, 105, 99] [[97, 58, 49], [98, 58, 50]]
    (by decide) (by decide)

/-- C2, as stated, fails: a name of 255 bytes with the tag `b` gets the marker byte
`byte(256) = 0`, and the key decodes to the name followed by `b`, with no tags. -/
theorem C2_long_name_counterexample :
    decodeCounterKey (encodeCounterKey (List.replicate 255 97) [[98]])
        = some (List.replicate 255 97 ++ [98], [])
      ∧ decodeCounterKey (encodeCounterKey (List.replicate 255 97) [[98]])
        ≠ some (List.replicate 255 97, [[98]]) := by
  have h : decodeCounterKey (encodeCounterKey (List.replicate 255 97) [[98]])
      = some (List.replicate 255 97 ++ [98], []) :=
    decode_encode_marker_zero (List.replicate 255 97) [98] []
      (by rw [List.length_replicate])
  refine ⟨h, ?_⟩
  rw [h]
  intro e
  simp only [Option.some.injEq, Prod.mk.injEq] at e
  exact absurd e.2 (by decide)

/-- C2, amended: for separator-free tags, decoding the encoded key returns the name
and the tags exactly when the tag list is empty or `len(name)+1` fits the marker byte
(`len(name)+1 < 256`). -/
theorem C2_decode_encode_iff (name : GoString) (tags : List GoString)
    (hsep : sepFree tags) :
    decodeCounterKey (encodeCounterKey name tags) = some (name, tags)
      ↔ (tags = [] ∨ name.length + 1 < 256) := by
  constructor
  · intro h
    cases tags with
    | nil => exact Or.inl rfl
    | cons t ts =>
      right
      rw [encodeCounterKey_tags] at h
      by_cases hm : (name.length + 1) % 256 = 0
      · simp [decodeCounterKey, hm] at h
      · have hle := decode_name_length _ name (t :: ts) _ _ rfl hm h
        have hlt : (name.length + 1) % 256 < 256 := Nat.mod_lt _ (by decide)
        omega
  · rintro (h | h)
    · subst h
      exact decode_encode_nil name
    · exact decode_encode name tags h hsep

/-- C2, amended, at the name `xy` with the tags `b` and `c`. -/
theorem C2_decode_encode_iff_witness :
    decodeCounterKey (encodeCounterKey [120, 121] [[98], [99]])
        = some ([120, 121], [[98], [99]])
      ↔ (([[98], [99]] : List GoString) = [] ∨ ([120, 121] : GoString).length + 1 < 256) :=
  C2_decode_encode_iff [120, 121] [[98], [99]] (by decide)

/-- C3, as stated, fails: the tag `b;c` and the two tags `b`, `c` give one key, and so
do a name of 255 bytes with the tag `b` and the name of 256 bytes without tags. -/
theorem C3_collision_counterexample :
    (encodeCounterKey [97] [[98, 59, 99]] = encodeCounterKey [97] [[98], [99]]
        ∧ ([[98, 59, 99]] : List GoString) ≠ [[98], [99]])
      ∧ (encodeCounterKey (List.replicate 255 97) [[98]]
          = encodeCounterKey (List.replicate 255 97 ++ [98]) []
        ∧ ([[98]] : List GoString) ≠ []) := by
  refine ⟨⟨by decide, by decide⟩, ?_, by decide⟩
  rw [encodeCounterKey_tags, encodeCounterKey_nil, List.length_replicate]
  rfl

/-- C3, amended: on the pairs whose tags are free of the separator and whose name fits
the marker byte (`len(name)+1 < 256`, or no tags at all), `encodeCounterKey` is
injective: equal keys come from equal names and equal tag lists. -/
theorem C3_encode_injective (name1 name2 : GoString) (tags1 tags2 : List GoString)
    (hsep1 : sepFree tags1) (hsep2 : sepFree tags2)
    (hlen1 : tags1 = [] ∨ name1.length + 1 < 256)
    (hlen2 : tags2 = [] ∨ name2.length + 1 < 256)
    (h : encodeCounterKey name1 tags1 = encodeCounterKey name2 tags2) :
    name1 = name2 ∧ tags1 = tags2 := by
  have h1 : decodeCounterKey (encodeCounterKey name1 tags1) = some (name1, tags1) := by
    rcases hlen1 with e | e
    · subst e; exact decode_encode_nil name1
    · exact decode_encode name1 tags1 e hsep1
  have h2 : decodeCounterKey (encodeCounterKey name2 tags2) = some (name2, tags2) := by
    rcases hlen2 with e | e
    · subst e; exact decode_encode_nil name2
    · exact decode_encode name2 tags2 e hsep2
  rw [h, h2] at h1
  simp only [Option.some.injEq, Prod.mk.injEq] at h1
  exact ⟨h1.1.symm, h1.2.symm⟩

/-- C3, amended, at two equal pairs: the hypotheses hold together. -/
theorem C3_encode_injective_witness :
    ([97] : GoString) = [97] ∧ ([[98], [99]] : List GoString) = [[98], [99]] :=
  C3_encode_injective [97] [97] [[98], [99]] [[98], [99]] (by decide) (by decide)
    (Or.inr (by decide)) (Or.inr (by decide)) rfl

/-! ## Claims on the drains -/

/-- C4: for every state whose resettable registry is initialized and well formed,
`writeHistogram` returns; for each entry of the registry, in iteration order, it hands
the sinks exactly one triple (the log line to the logger and, when the datadog client
is set, the gauge to the client) whose name and tags are the decoded key and whose value
is the value of the cell before the drain, followed by the five memory triples; no
other triple of the loop, and for a name that is not a memory name no other triple of
the drain, carries the same name and tags; afterwards the registry has the same keys,
every cell reads 0, and nothing else of the state has changed. -/
theorem C4_writeHistogram_drains (st : State) (cm : counterMap) (mem : MemStats)
    (hc : st.cMap = some cm) (hwf : cm.wf) :
    ∃ loop st',
      writeHistogram st mem = some st'
        ∧ List.Forall₂ reports cm.m loop
        ∧ st' = { st with
                  cMap := some { m := zeroed cm.m }
                  trace := st.trace ++ emissions st.ddCli loop
                    ++ emissions st.ddCli (memoryTriples mem) }
        ∧ st'.trace = st.trace ++ emissions st.ddCli loop
            ++ emissions st.ddCli (memoryTriples mem)
        ∧ (∀ mt ∈ loop,
            loop.filter (fun x => decide (x.name = mt.name ∧ x.tags = mt.tags)) = [mt])
        ∧ (∀ mt ∈ loop, mt.name ∉ memoryNames →
            (loop ++ memoryTriples mem).filter
                (fun x => decide (x.name = mt.name ∧ x.tags = mt.tags)) = [mt])
        ∧ st'.cMap = some { m := zeroed cm.m }
        ∧ (zeroed cm.m).map Prod.fst = cm.keys
        ∧ ∀ k ∈ cm.keys, (mapGet k (zeroed cm.m)).map dataCounter.read = some 0 := by
  have hdec := wf_decodes cm hwf
  have hrun := writeHistogram_trace st cm mem hc hwf
  rw [emissions_append, ← List.append_assoc] at hrun
  refine ⟨cm.m.map metricOf, _, hrun, reports_metricOf cm.m hdec, rfl, rfl,
    fun mt h => filter_loop_unique cm hwf mt h, ?_, rfl, keys_zeroed cm.m, ?_⟩
  · intro mt h hn
    rw [List.filter_append, filter_loop_unique cm hwf mt h,
      filter_memory_nil mem _ (fun x hx => by
        simp only [decide_eq_true_eq] at hx
        rw [hx.1]
        exact hn)]
    rfl
  · intro k hk
    rw [mapGet_zeroed]
    cases hg : mapGet k cm.m with
    | none => exact absurd hk ((mapGet_eq_none_iff k cm.m).1 hg)
    | some c => rfl

/-- C4 at the sample state: the counters `a` at 2 and `b`, tagged `t`, at 5. -/
theorem C4_writeHistogram_drains_witness :
    ∃ loop st',
      writeHistogram sampleState sampleMem = some st'
        ∧ List.Forall₂ reports sampleRegistry.m loop
        ∧ st' = { sampleState with
                  cMap := some { m := zeroed sampleRegistry.m }
                  trace := sampleState.trace ++ emissions sampleState.ddCli loop
                    ++ emissions sampleState.ddCli (memoryTriples sampleMem) }
        ∧ st'.trace = sampleState.trace ++ emissions sampleState.ddCli loop
            ++ emissions sampleState.ddCli (memoryTriples sampleMem)
        ∧ (∀ mt ∈ loop,
            loop.filter (fun x => decide (x.name = mt.name ∧ x.tags = mt.tags)) = [mt])
        ∧ (∀ mt ∈ loop, mt.name ∉ memoryNames →
            (loop ++ memoryTriples sampleMem).filter
                (fun x => decide (x.name = mt.name ∧ x.tags = mt.tags)) = [mt])
        ∧ st'.cMap = some { m := zeroed sampleRegistry.m }
        ∧ (zeroed sampleRegistry.m).map Prod.fst = sampleRegistry.keys
        ∧ ∀ k ∈ sampleRegistry.keys,
            (mapGet k (zeroed sampleRegistry.m)).map dataCounter.read = some 0 :=
  C4_writeHistogram_drains sampleState sampleRegistry sampleMem rfl (by decide)

/-- C5: for every state whose persistent registry is initialized and well formed,
`writePersistentCounter` returns; for each entry, in iteration order, it hands the
sinks exactly one triple (the log line and, when the datadog client is set, the gauge)
with the decoded key and the current value of the cell, and changes nothing but the
trace; so after any number `n` of drains in a row the same triples, with the same
values, have been handed over `n` times and the persistent registry, with every value
in it, is what it was. -/
theorem C5_writePersistentCounter_keeps (st : State) (pm : counterMap) (n : Nat)
    (hp : st.pcMap = some pm) (hwf : pm.wf) :
    ∃ loop stn,
      List.Forall₂ reports pm.m loop
        ∧ writePersistentCounter st
            = some { st with trace := st.trace ++ emissions st.ddCli loop }
        ∧ (∀ mt ∈ loop,
            loop.filter (fun x => decide (x.name = mt.name ∧ x.tags = mt.tags)) = [mt])
        ∧ repeatCall writePersistentCounter n st = some stn
        ∧ stn = { st with
                  trace := st.trace ++ (List.replicate n (emissions st.ddCli loop)).flatten }
        ∧ stn.pcMap = some pm
        ∧ stn.cMap = st.cMap := by
  have hdec := wf_decodes pm hwf
  have hmany : ∀ (k : Nat) (s : State), s.pcMap = some pm →
      repeatCall writePersistentCounter k s
        = some { s with
            trace := s.trace
              ++ (List.replicate k (emissions s.ddCli (pm.m.map metricOf))).flatten } := by
    intro k
    induction k with
    | zero =>
      intro s _
      simp [repeatCall]
    | succ k ih =>
      intro s hs
      simp only [repeatCall, writePersistentCounter_trace s pm hs hwf, Option.some_bind]
      rw [ih { s with trace := s.trace ++ emissions s.ddCli (pm.m.map metricOf) } hs]
      simp [List.replicate_succ]
  refine ⟨pm.m.map metricOf, _, reports_metricOf pm.m hdec,
    writePersistentCounter_trace st pm hp hwf, fun mt h => filter_loop_unique pm hwf mt h,
    hmany n st hp, rfl, hp, rfl⟩

/-- C5 at the sample state, for three drains in a row. -/
theorem C5_writePersistentCounter_keeps_witness :
    ∃ loop stn,
      List.Forall₂ reports sampleRegistry.m loop
        ∧ writePersistentCounter sampleState
            = some { sampleState with
                trace := sampleState.trace ++ emissions sampleState.ddCli loop }
        ∧ (∀ mt ∈ loop,
            loop.filter (fun x => decide (x.name = mt.name ∧ x.tags = mt.tags)) = [mt])
        ∧ repeatCall writePersistentCounter 3 sampleState = some stn
        ∧ stn = { sampleState with
                  trace := sampleState.trace
                    ++ (List.replicate 3 (emissions sampleState.ddCli loop)).flatten }
        ∧ stn.pcMap = some sampleRegistry
        ∧ stn.cMap = sampleState.cMap :=
  C5_writePersistentCounter_keeps sampleState sampleRegistry 3 rfl (by decide)

/-! ## Claims on the registry -/

/-- C6: for every initialized, well-formed registry, every key `(name, tags)`, value
`v` and operation (increment, decrement, set), `modifyCounter` returns; when the key is
absent it appends one new cell holding the operation applied to 0 and `v`; when the key
is present with value `x` the keys are unchanged and the cell holds the operation
applied to `x` and `v`; the other cells are untouched; either way the registry then
holds exactly one cell for the key.  The result is the `int64` one, equal to `x + v`,
`x - v`, `v` whenever that is an `int64`. -/
theorem C6_modifyCounter_cell (cm : counterMap) (name : GoString) (tags : List GoString)
    (v : Int) (op : CellOp) (hwf : cm.wf) :
    ∃ cm',
      modifyCounter (some cm) name tags v op.modify = some cm'
        ∧ (cm'.m.filter (fun kc => decide (kc.1 = encodeCounterKey name tags))).length = 1
        ∧ (mapGet (encodeCounterKey name tags) cm.m = none →
            cm'.m = cm.m ++ [(encodeCounterKey name tags, { i := op.result 0 v })])
        ∧ (∀ x, mapGet (encodeCounterKey name tags) cm.m = some { i := x } →
            cm'.keys = cm.keys
              ∧ mapGet (encodeCounterKey name tags) cm'.m = some { i := op.result x v })
        ∧ (∀ k, k ≠ encodeCounterKey name tags → mapGet k cm'.m = mapGet k cm.m)
        ∧ (∀ x, isInt64 (op.exact x v) → op.result x v = op.exact x v) := by
  obtain ⟨cm', hrun⟩ : ∃ cm', modifyCounter (some cm) name tags v op.modify = some cm' :=
    ⟨_, modifyCounter_some cm name tags v op.modify⟩
  have hwf' := modifyCounter_wf cm cm' name tags v op.modify hwf hrun
  have hkeys := modifyCounter_keys cm cm' name tags v op.modify hrun
  have hget := modifyCounter_get cm cm' name tags v op.modify hrun
  refine ⟨cm', hrun, ?_, ?_, ?_, ?_, fun x h => CellOp.result_exact op x v h⟩
  · have hg := hget (encodeCounterKey name tags)
    rw [if_pos rfl] at hg
    rw [filter_key_eq _ _ cm'.m hwf'.1 hg]
    rfl
  · intro habs
    have h := hrun
    rw [modifyCounter_some] at h
    simp only [habs, Option.some.injEq] at h
    rw [← h]
    simp only [mapInsert, newDataCounter, CellOp.modify_eq]
  · intro x hx
    have hin : encodeCounterKey name tags ∈ cm.keys := by
      by_contra hc
      rw [(mapGet_eq_none_iff _ _).2 hc] at hx
      exact absurd hx (by simp)
    refine ⟨by rw [hkeys, if_pos hin], ?_⟩
    rw [hget, if_pos rfl, hx]
    simp only [Option.getD_some, CellOp.modify_eq]
  · intro k hk
    rw [hget, if_neg hk]

/-- C6 at the sample registry: a decrement by 3 of the counter `a`, which holds 2. -/
theorem C6_modifyCounter_cell_witness :
    ∃ cm',
      modifyCounter (some sampleRegistry) [97] [] 3 CellOp.decrement.modify = some cm'
        ∧ (cm'.m.filter (fun kc => decide (kc.1 = encodeCounterKey [97] []))).length = 1
        ∧ (mapGet (encodeCounterKey [97] []) sampleRegistry.m = none →
            cm'.m = sampleRegistry.m
              ++ [(encodeCounterKey [97] [], { i := CellOp.decrement.result 0 3 })])
        ∧ (∀ x, mapGet (encodeCounterKey [97] []) sampleRegistry.m = some { i := x } →
            cm'.keys = sampleRegistry.keys
              ∧ mapGet (encodeCounterKey [97] []) cm'.m
                  = some { i := CellOp.decrement.result x 3 })
        ∧ (∀ k, k ≠ encodeCounterKey [97] [] → mapGet k cm'.m = mapGet k sampleRegistry.m)
        ∧ (∀ x, isInt64 (CellOp.decrement.exact x 3) →
            CellOp.decrement.result x 3 = CellOp.decrement.exact x 3) :=
  C6_modifyCounter_cell sampleRegistry [97] [] 3 CellOp.decrement (by decide)

/-- C7, as stated, fails at two inputs, each after a first start with the datadog
client set.  After the single call `DecCounter("b", -1)` the drain hands the sinks the
triple `(b, [], 1)`: the name was only decremented and is reported as a positive value.
After the single call `IncCounter("memusage.alloc", 5)` the drain hands the sinks two
triples under that name, the counter with 5 and the memory figure with 4096. -/
theorem C7_reported_values_counterexample :
    (runHistCalls [HistCall.DecCounter [98] (-1)] startedState).bind
          (fun s => writeHistogram s sampleMem)
        = some { startedState with
            cMap := some { m := [([0, 98], { i := 0 })] }
            trace := startedState.trace
              ++ emissions true ({ name := [98], tags := [], val := 1 }
                  :: memoryTriples sampleMem) }
      ∧ (runHistCalls [HistCall.IncCounter (bytes "memusage.alloc") 5] startedState).bind
          (fun s => writeHistogram s sampleMem)
        = some { startedState with
            cMap := some { m := [(0 :: bytes "memusage.alloc", { i := 0 })] }
            trace := startedState.trace
              ++ emissions true ({ name := bytes "memusage.alloc", tags := [], val := 5 }
                  :: memoryTriples sampleMem) }
      ∧ (({ name := bytes "memusage.alloc", tags := [], val := 5 } : Metric)
            :: memoryTriples sampleMem).filter
          (fun x => decide (x.name = bytes "memusage.alloc"))
        = [{ name := bytes "memusage.alloc", tags := [], val := 5 },
           { name := bytes "memusage.alloc", tags := [], val := 4096 }] := by
  refine ⟨?_, ?_, by decide⟩
  · have h1 : runHistCalls [HistCall.DecCounter [98] (-1)] startedState
        = some { startedState with cMap := some { m := [([0, 98], { i := 1 })] } } := by
      decide
    rw [h1, Option.some_bind,
      writeHistogram_trace _ { m := [([0, 98], { i := 1 })] } sampleMem rfl (by decide)]
    rfl
  · have h1 : runHistCalls [HistCall.IncCounter (bytes "memusage.alloc") 5] startedState
        = some { startedState with
            cMap := some { m := [(0 :: bytes "memusage.alloc", { i := 5 })] } } := by
      decide
    rw [h1, Option.some_bind,
      writeHistogram_trace _ { m := [(0 :: bytes "memusage.alloc", { i := 5 })] } sampleMem
        rfl (by decide)]
    rfl

/-- C7, amended: from an empty resettable registry, every finite sequence of
`IncCounter` and `DecCounter` calls returns, and the next `writeHistogram` hands the
sinks, from its loop, exactly one triple for every name called: that name, no tags, and
the sum of the increments minus the sum of the decrements issued for that name, in
`int64` arithmetic (the exact difference whenever it is an `int64`), whatever the calls
for other names; then the five memory triples.  So a called name that is not a memory
name has exactly one triple in the whole drain, and a name that was only decremented,
by a positive total of at most `2^63`, is reported as a negative value. -/
theorem C7_hist_totals (st : State) (calls : List HistCall) (mem : MemStats)
    (hc : st.cMap = some newCounterMap) :
    ∃ cm1 loop,
      runHistCalls calls st = some { st with cMap := some cm1 }
        ∧ writeHistogram { st with cMap := some cm1 } mem
            = some { st with
                cMap := some { m := zeroed cm1.m }
                trace := st.trace ++ emissions st.ddCli loop
                  ++ emissions st.ddCli (memoryTriples mem) }
        ∧ (∀ name, loop.filter (fun mt => decide (mt.name = name))
            = if name ∈ calls.map HistCall.name then
                [{ name := name, tags := [],
                   val := wrap64 (incSum name calls - decSum name calls) }]
              else [])
        ∧ (∀ name, name ∈ calls.map HistCall.name → name ∉ memoryNames →
            (loop ++ memoryTriples mem).filter (fun mt => decide (mt.name = name))
              = [{ name := name, tags := [],
                   val := wrap64 (incSum name calls - decSum name calls) }])
        ∧ (∀ name, isInt64 (incSum name calls - decSum name calls) →
            wrap64 (incSum name calls - decSum name calls)
              = incSum name calls - decSum name calls)
        ∧ (∀ name, (∀ v, HistCall.IncCounter name v ∉ calls) →
            0 < decSum name calls → decSum name calls ≤ 2 ^ 63 →
            wrap64 (incSum name calls - decSum name calls) < 0) := by
  obtain ⟨cm1, hrun, hwf1, hkeys, hcell⟩ :=
    runHistCalls_spec calls st newCounterMap hc newCounterMap_wf
  have hloop : ∀ name, (cm1.m.map metricOf).filter (fun mt => decide (mt.name = name))
      = if name ∈ calls.map HistCall.name then
          [{ name := name, tags := [],
             val := wrap64 (incSum name calls - decSum name calls) }]
        else [] := by
    intro name
    have h0 : ∀ kc ∈ cm1.m, ∃ n, kc.1 = 0 :: n := by
      intro kc hkc
      rcases hkeys kc.1 (List.mem_map_of_mem Prod.fst hkc) with h | ⟨c, _, h⟩
      · simp [counterMap.keys, newCounterMap] at h
      · exact ⟨c.name, h⟩
    rw [filter_metricOf_untagged name cm1.m h0]
    have hget := hcell name
    by_cases hin : name ∈ calls.map HistCall.name
    · rw [if_pos hin] at hget
      rw [if_pos hin, filter_key_eq _ _ cm1.m hwf1.1 hget]
      simp [metricOf, decodeCounterKey, newCounterMap, mapGet, newDataCounter]
    · rw [if_neg hin] at hget
      rw [if_neg hin, filter_key_absent _ cm1.m (by rw [hget]; rfl)]
      rfl
  refine ⟨cm1, cm1.m.map metricOf, hrun, ?_, hloop, ?_,
    fun name h => wrap64_of_isInt64 _ h, ?_⟩
  · have h := writeHistogram_trace { st with cMap := some cm1 } cm1 mem rfl hwf1
    rw [emissions_append, ← List.append_assoc] at h
    exact h
  · intro name hin hn
    rw [List.filter_append, hloop name, if_pos hin,
      filter_memory_nil mem _ (fun x hx => by
        simp only [decide_eq_true_eq] at hx
        rw [hx]
        exact hn)]
    rfl
  · intro name hno h0 h1
    rw [incSum_no_inc name calls hno]
    exact wrap64_neg_of_pos _ h0 h1

/-- C7, amended, on the calls of the tests, after the first `StartHistogramLogging`. -/
theorem C7_hist_totals_witness :
    ∃ cm1 loop,
      runHistCalls sampleCalls (StartHistogramLogging State.initial)
        = some { StartHistogramLogging State.initial with cMap := some cm1 }
        ∧ writeHistogram { StartHistogramLogging State.initial with cMap := some cm1 } sampleMem
            = some { StartHistogramLogging State.initial with
                cMap := some { m := zeroed cm1.m }
                trace := (StartHistogramLogging State.initial).trace
                  ++ emissions (StartHistogramLogging State.initial).ddCli loop
                  ++ emissions (StartHistogramLogging State.initial).ddCli
                      (memoryTriples sampleMem) }
        ∧ (∀ name, loop.filter (fun mt => decide (mt.name = name))
            = if name ∈ sampleCalls.map HistCall.name then
                [{ name := name, tags := [],
                   val := wrap64 (incSum name sampleCalls - decSum name sampleCalls) }]
              else [])
        ∧ (∀ name, name ∈ sampleCalls.map HistCall.name → name ∉ memoryNames →
            (loop ++ memoryTriples sampleMem).filter (fun mt => decide (mt.name = name))
              = [{ name := name, tags := [],
                   val := wrap64 (incSum name sampleCalls - decSum name sampleCalls) }])
        ∧ (∀ name, isInt64 (incSum name sampleCalls - decSum name sampleCalls) →
            wrap64 (incSum name sampleCalls - decSum name sampleCalls)
              = incSum name sampleCalls - decSum name sampleCalls)
        ∧ (∀ name, (∀ v, HistCall.IncCounter name v ∉ sampleCalls) →
            0 < decSum name sampleCalls → decSum name sampleCalls ≤ 2 ^ 63 →
            wrap64 (incSum name sampleCalls - decSum name sampleCalls) < 0) :=
  C7_hist_totals (StartHistogramLogging State.initial) sampleCalls sampleMem rfl

/-- C8: for every initialized, well-formed resettable registry, every name with
`len(name)+1 < 255` and every two different separator-free tag lists, the two keys
differ; `IncTaggedCounter` on one tag list leaves the cell of the other as it was and
adds its value to its own cell; and the next drain writes exactly one triple under the
name with the first tag list and exactly one under the name with the second, each with
the value of its own cell; the trace of that drain is the log line and, when the datadog
client is set, the gauge of each triple of the loop, then of the memory triples. -/
theorem C8_tagged_cells_distinct (st : State) (cm : counterMap) (name : GoString)
    (tags1 tags2 : List GoString) (v w : Int) (mem : MemStats)
    (hc : st.cMap = some cm) (hwf : cm.wf) (hlen : name.length + 1 < 255)
    (hne : tags1 ≠ tags2) (hsep1 : sepFree tags1) (hsep2 : sepFree tags2) :
    encodeCounterKey name tags1 ≠ encodeCounterKey name tags2
      ∧ ∃ cm1 cm2 loop,
          IncTaggedCounter st name tags1 v = some { st with cMap := some cm1 }
            ∧ IncTaggedCounter { st with cMap := some cm1 } name tags2 w
                = some { st with cMap := some cm2 }
            ∧ mapGet (encodeCounterKey name tags2) cm1.m
                = mapGet (encodeCounterKey name tags2) cm.m
            ∧ mapGet (encodeCounterKey name tags1) cm2.m
                = mapGet (encodeCounterKey name tags1) cm1.m
            ∧ mapGet (encodeCounterKey name tags1) cm1.m
                = some (incCounterValue
                    ((mapGet (encodeCounterKey name tags1) cm.m).getD newDataCounter) v)
            ∧ mapGet (encodeCounterKey name tags2) cm2.m
                = some (incCounterValue
                    ((mapGet (encodeCounterKey name tags2) cm.m).getD newDataCounter) w)
            ∧ writeHistogram { st with cMap := some cm2 } mem
                = some (writeMemoryConsumption
                    (writeMetrics { st with cMap := some { m := zeroed cm2.m } } loop) mem)
            ∧ writeHistogram { st with cMap := some cm2 } mem
                = some { st with
                    cMap := some { m := zeroed cm2.m }
                    trace := st.trace ++ emissions st.ddCli loop
                      ++ emissions st.ddCli (memoryTriples mem) }
            ∧ loop.filter (fun mt => decide (mt.name = name ∧ mt.tags = tags1))
                = [{ name := name, tags := tags1,
                     val := (incCounterValue
                       ((mapGet (encodeCounterKey name tags1) cm.m).getD newDataCounter) v).i }]
            ∧ loop.filter (fun mt => decide (mt.name = name ∧ mt.tags = tags2))
                = [{ name := name, tags := tags2,
                     val := (incCounterValue
                       ((mapGet (encodeCounterKey name tags2) cm.m).getD newDataCounter) w).i }] := by
  have hd1 := decode_encode name tags1 (by omega) hsep1
  have hd2 := decode_encode name tags2 (by omega) hsep2
  have hkne : encodeCounterKey name tags1 ≠ encodeCounterKey name tags2 := by
    intro e
    rw [e, hd2] at hd1
    simp only [Option.some.injEq, Prod.mk.injEq, true_and] at hd1
    exact hne hd1.symm
  obtain ⟨cm1, hrun1⟩ : ∃ cm1, modifyCounter (some cm) name tags1 v incCounterValue = some cm1 :=
    ⟨_, modifyCounter_some cm name tags1 v incCounterValue⟩
  obtain ⟨cm2, hrun2⟩ : ∃ cm2, modifyCounter (some cm1) name tags2 w incCounterValue = some cm2 :=
    ⟨_, modifyCounter_some cm1 name tags2 w incCounterValue⟩
  have hwf1 := modifyCounter_wf cm cm1 name tags1 v _ hwf hrun1
  have hwf2 := modifyCounter_wf cm1 cm2 name tags2 w _ hwf1 hrun2
  have hget1 := modifyCounter_get cm cm1 name tags1 v _ hrun1
  have hget2 := modifyCounter_get cm1 cm2 name tags2 w _ hrun2
  have h21 : mapGet (encodeCounterKey name tags2) cm1.m
      = mapGet (encodeCounterKey name tags2) cm.m := by
    rw [hget1, if_neg (fun e => hkne e.symm)]
  have h12 : mapGet (encodeCounterKey name tags1) cm2.m
      = mapGet (encodeCounterKey name tags1) cm1.m := by
    rw [hget2, if_neg hkne]
  have h11 : mapGet (encodeCounterKey name tags1) cm1.m
      = some (incCounterValue
          ((mapGet (encodeCounterKey name tags1) cm.m).getD newDataCounter) v) := by
    rw [hget1, if_pos rfl]
  have h22 : mapGet (encodeCounterKey name tags2) cm2.m
      = some (incCounterValue
          ((mapGet (encodeCounterKey name tags2) cm.m).getD newDataCounter) w) := by
    rw [hget2, if_pos rfl, h21]
  refine ⟨hkne, cm1, cm2, cm2.m.map metricOf, ?_, ?_, h21, h12, h11, h22, ?_, ?_, ?_, ?_⟩
  · rw [IncTaggedCounter_some st cm name tags1 v hc, hrun1]
    rfl
  · rw [IncTaggedCounter_some { st with cMap := some cm1 } cm1 name tags2 w rfl, hrun2]
    rfl
  · exact writeHistogram_eq { st with cMap := some cm2 } cm2 mem rfl hwf2
  · have h := writeHistogram_trace { st with cMap := some cm2 } cm2 mem rfl hwf2
    rw [emissions_append, ← List.append_assoc] at h
    exact h
  · rw [filter_metricOf_key _ name tags1 cm2.m (wf_decodes cm2 hwf2) hd1,
      filter_key_eq _ _ cm2.m hwf2.1 (h12.trans h11)]
    simp [metricOf, hd1]
  · rw [filter_metricOf_key _ name tags2 cm2.m (wf_decodes cm2 hwf2) hd2,
      filter_key_eq _ _ cm2.m hwf2.1 h22]
    simp [metricOf, hd2]

/-- C8 on the tag lists of the spec, `[a]` and `[a, b]`, for the name `x`, from the
sample state. -/
theorem C8_tagged_cells_distinct_witness :
    encodeCounterKey [120] [[97]] ≠ encodeCounterKey [120] [[97], [98]]
      ∧ ∃ cm1 cm2 loop,
          IncTaggedCounter sampleState [120] [[97]] 1
              = some { sampleState with cMap := some cm1 }
            ∧ IncTaggedCounter { sampleState with cMap := some cm1 } [120] [[97], [98]] 1
                = some { sampleState with cMap := some cm2 }
            ∧ mapGet (encodeCounterKey [120] [[97], [98]]) cm1.m
                = mapGet (encodeCounterKey [120] [[97], [98]]) sampleRegistry.m
            ∧ mapGet (encodeCounterKey [120] [[97]]) cm2.m
                = mapGet (encodeCounterKey [120] [[97]]) cm1.m
            ∧ mapGet (encodeCounterKey [120] [[97]]) cm1.m
                = some (incCounterValue
                    ((mapGet (encodeCounterKey [120] [[97]]) sampleRegistry.m).getD
                      newDataCounter) 1)
            ∧ mapGet (encodeCounterKey [120] [[97], [98]]) cm2.m
                = some (incCounterValue
                    ((mapGet (encodeCounterKey [120] [[97], [98]]) sampleRegistry.m).getD
                      newDataCounter) 1)
            ∧ writeHistogram { sampleState with cMap := some cm2 } sampleMem
                = some (writeMemoryConsumption
                    (writeMetrics { sampleState with cMap := some { m := zeroed cm2.m } } loop)
                    sampleMem)
            ∧ writeHistogram { sampleState with cMap := some cm2 } sampleMem
                = some { sampleState with
                    cMap := some { m := zeroed cm2.m }
                    trace := sampleState.trace ++ emissions sampleState.ddCli loop
                      ++ emissions sampleState.ddCli (memoryTriples sampleMem) }
            ∧ loop.filter (fun mt => decide (mt.name = [120] ∧ mt.tags = [[97]]))
                = [{ name := [120], tags := [[97]],
                     val := (incCounterValue
                       ((mapGet (encodeCounterKey [120] [[97]]) sampleRegistry.m).getD
                         newDataCounter) 1).i }]
            ∧ loop.filter (fun mt => decide (mt.name = [120] ∧ mt.tags = [[97], [98]]))
                = [{ name := [120], tags := [[97], [98]],
                     val := (incCounterValue
                       ((mapGet (encodeCounterKey [120] [[97], [98]]) sampleRegistry.m).getD
                         newDataCounter) 1).i }] :=
  C8_tagged_cells_distinct sampleState sampleRegistry [120] [[97]] [[97], [98]] 1 1 sampleMem
    rfl (by decide) (by decide) (by decide) (by decide) (by decide)

/-! ## Claims on setup -/

/-- C9: with both registries nil, every call of each of the twelve entry points, for
every name, tag list and value, returns; it reports one error to the logger and changes
nothing else: both registries are still nil and no counter exists. -/
theorem C9_before_setup_dropped (ep : EntryPoint) (st : State) (name : GoString)
    (tags : List GoString) (value : Int) (hc : st.cMap = none) (hp : st.pcMap = none) :
    ∃ line st',
      ep.call st name tags value = some st'
        ∧ st' = Errorf st line
        ∧ st'.cMap = none
        ∧ st'.pcMap = none := by
  cases ep <;>
    simp only [EntryPoint.call, Glog.IncCounter, Glog.IncTaggedCounter, Glog.DecCounter,
      Glog.DecTaggedCounter, Glog.SetCounter, Glog.SetTaggedCounter, Glog.IncPCounter,
      Glog.IncTaggedPCounter, Glog.DecPCounter, Glog.DecTaggedPCounter, Glog.SetPCounter,
      Glog.SetTaggedPCounter, hc, hp, Option.isNone_none, if_true] <;>
    exact ⟨_, _, rfl, rfl, hc, hp⟩

/-- C9 for `SetTaggedPCounter` in the state of a process before any call. -/
theorem C9_before_setup_dropped_witness :
    ∃ line st',
      EntryPoint.SetTaggedPCounter.call State.initial [120] [[97]] 1 = some st'
        ∧ st' = Errorf State.initial line
        ∧ st'.cMap = none
        ∧ st'.pcMap = none :=
  C9_before_setup_dropped EntryPoint.SetTaggedPCounter State.initial [120] [[97]] 1 rfl rfl

/-- C10: in every state reached by a run after a first `StartHistogramLogging`, a
second call changes nothing: the state after it, with both registries, every counter
value and the record of the periodic loggers started, is the state before it. -/
theorem C10_start_idempotent (st0 st : State) (ops : List Op)
    (hrun : runOps ops (StartHistogramLogging st0) = some st) :
    StartHistogramLogging st = st := by
  have hl := runOps_hLogOnce ops _ st hrun (StartHistogramLogging_hLogOnce st0)
  unfold StartHistogramLogging
  rw [if_pos hl]

/-- C10 after a first start and two counter calls from the initial state. -/
theorem C10_start_idempotent_witness :
    StartHistogramLogging
        { StartHistogramLogging State.initial with
          cMap := some { m := [(encodeCounterKey [97] [], { i := 3 })] } }
      = { StartHistogramLogging State.initial with
          cMap := some { m := [(encodeCounterKey [97] [], { i := 3 })] } } :=
  C10_start_idempotent State.initial _
    [Op.counter EntryPoint.IncCounter [97] [] 1, Op.counter EntryPoint.IncCounter [97] [] 2]
    (by decide)

/-! ## Claims on the cell under concurrency and on codec misuse -/

/-- C11, at the failing interleaving: on a cell holding 0, `reset` loads, a concurrent
`increment(1)` lands, `reset` stores 0.  `reset` returns 0 and the cell reads 0: the
increment is counted in neither, although one update of 1 was made.  (Without a step
in between, the two halves are `reset`.) -/
theorem C11_reset_loses_update :
    (runRace [RaceStep.resetLoad, RaceStep.increment 1, RaceStep.resetStore]
        { cell := { i := 0 }, current := 0 }).current = 0
      ∧ (runRace [RaceStep.resetLoad, RaceStep.increment 1, RaceStep.resetStore]
        { cell := { i := 0 }, current := 0 }).cell.read = 0
      ∧ raceUpdates [RaceStep.resetLoad, RaceStep.increment 1, RaceStep.resetStore] = 1
      ∧ (({ i := 0 } : dataCounter).resetLoad, ({ i := 0 } : dataCounter).resetStore)
          = ({ i := 0 } : dataCounter).reset := by
  decide

/-- C12, as stated, fails: the tag `b;c` under the name `a` is encoded, without an
error, to the key of the two tags `b` and `c`, which decodes to those two tags. -/
theorem C12_no_rejection_counterexample :
    encodeCounterKey [97] [[98, 59, 99]] = [2, 97, 98, 59, 99]
      ∧ decodeCounterKey (encodeCounterKey [97] [[98, 59, 99]]) = some ([97], [[98], [99]])
      ∧ decodeCounterKey (encodeCounterKey [97] [[98, 59, 99]])
          ≠ some ([97], [[98, 59, 99]]) := by
  decide

/-- C12, amended: `encodeCounterKey` validates nothing and never fails; for a tag list
with a tag that holds the separator, and for a non-empty tag list with a name too long
for the marker byte (`len(name)+1 ≥ 256`), it produces a key that decodes, without a
panic, to a pair other than `(name, tags)`. -/
theorem C12_misuse_encodes (name : GoString) (tags : List GoString)
    (h : ¬ sepFree tags ∨ (tags ≠ [] ∧ 256 ≤ name.length + 1)) :
    ∃ r, decodeCounterKey (encodeCounterKey name tags) = some r ∧ r ≠ (name, tags) := by
  obtain ⟨r, hr⟩ := Option.isSome_iff_exists.1 (decode_encode_isSome name tags)
  refine ⟨r, hr, ?_⟩
  intro e
  rw [e] at hr
  rcases h with h | ⟨hne, hlen⟩
  · exact h (decode_tags_sepFree _ name tags hr)
  · cases tags with
    | nil => exact hne rfl
    | cons t ts =>
      have := decode_encode_bound name t ts (t :: ts) hr hne
      omega

/-- C12, amended, at the name `a` with the tag `b;c`. -/
theorem C12_misuse_encodes_witness :
    ∃ r, decodeCounterKey (encodeCounterKey [97] [[98, 59, 99]]) = some r
      ∧ r ≠ ([97], [[98, 59, 99]]) :=
  C12_misuse_encodes [97] [[98, 59, 99]] (Or.inl (by decide))

/-- C13, as stated, fails: for a name of 255 bytes with the tag `b` the marker of the
key is `byte(256) = 0`, not `len(name)+1 = 256`. -/
theorem C13_marker_counterexample :
    encodeCounterKey (List.replicate 255 97) [[98]]
        ≠ referenceKey (List.replicate 255 97) [[98]]
      ∧ (encodeCounterKey (List.replicate 255 97) [[98]]).head? = some 0
      ∧ (referenceKey (List.replicate 255 97) [[98]]).head? = some 256 := by
  have h1 : (encodeCounterKey (List.replicate 255 97) [[98]]).head? = some 0 := by
    rw [encodeCounterKey_tags, List.length_replicate]
    rfl
  have h2 : (referenceKey (List.replicate 255 97) [[98]]).head? = some 256 := by
    unfold referenceKey
    rw [if_neg (by decide), List.length_replicate]
    rfl
  refine ⟨?_, h1, h2⟩
  intro e
  rw [e, h2] at h1
  exact absurd h1 (by decide)

/-- C13, amended: for every name and tag list the key is the reference layout with
the marker reduced to one byte (`(len(name)+1) mod 256`; the zero marker is unchanged);
it is the reference layout itself whenever the tag list is empty or
`len(name)+1 < 256`. -/
theorem C13_encode_layout (name : GoString) (tags : List GoString) :
    encodeCounterKey name tags = (referenceKey name tags).modifyHead (fun m => m % 256)
      ∧ ((tags = [] ∨ name.length + 1 < 256) →
          encodeCounterKey name tags = referenceKey name tags) := by
  cases tags with
  | nil =>
    refine ⟨?_, fun _ => ?_⟩ <;> simp [encodeCounterKey_nil, referenceKey, List.modifyHead]
  | cons t ts =>
    have hne : (t :: ts) ≠ [] := by simp
    refine ⟨?_, fun h => ?_⟩
    · rw [encodeCounterKey_tags, joinTags_eq_intercalate]
      unfold referenceKey
      rw [if_neg hne]
      rfl
    · rcases h with h | h
      · exact absurd h hne
      · rw [encodeCounterKey_tags, joinTags_eq_intercalate, Nat.mod_eq_of_lt h]
        unfold referenceKey
        rw [if_neg hne]

/-- C13, amended, at the key of the test: name `metric`, tags `a:1` and `b:2`. -/
theorem C13_encode_layout_witness :
    encodeCounterKey [109, 101, 116, 114, 105, 99] [[97, 58, 49], [98, 58, 50]]
        = (referenceKey [109, 101, 116, 114, 105, 99]
            [[97, 58, 49], [98, 58, 50]]).modifyHead (fun m => m % 256)
      ∧ ((([[97, 58, 49], [98, 58, 50]] : List GoString) = []
            ∨ ([109, 101, 116, 114, 105, 99] : GoString).length + 1 < 256) →
          encodeCounterKey [109, 101, 116, 114, 105, 99] [[97, 58, 49], [98, 58, 50]]
            = referenceKey [109, 101, 116, 114, 105, 99] [[97, 58, 49], [98, 58, 50]]) :=
  C13_encode_layout [109, 101, 116, 114, 105, 99] [[97, 58, 49], [98, 58, 50]]

/-! ## Claims on the two registries -/

/-- C14: in every state where both registries exist and are well formed (the same keys
in both or not), every entry point of the resettable registry and `writeHistogram`
return and leave the persistent registry as it was, and every entry point of the
persistent registry, `writePersistentCounter` and `ResetPersistentCounter` return and
leave the resettable registry as it was. -/
theorem C14_registries_independent (st : State) (cm pm : counterMap)
    (hc : st.cMap = some cm) (hp : st.pcMap = some pm) (hwfc : cm.wf) (hwfp : pm.wf) :
    (∀ (ep : EntryPoint) (name : GoString) (tags : List GoString) (value : Int),
        ∃ st', ep.call st name tags value = some st'
          ∧ (ep.isPersistent = false → st'.pcMap = st.pcMap)
          ∧ (ep.isPersistent = true → st'.cMap = st.cMap))
      ∧ (∀ mem, ∃ st', writeHistogram st mem = some st' ∧ st'.pcMap = st.pcMap)
      ∧ (∃ st', writePersistentCounter st = some st' ∧ st'.cMap = st.cMap)
      ∧ (∃ st', ResetPersistentCounter st = some st' ∧ st'.cMap = st.cMap) := by
  refine ⟨?_, ?_, ?_, ?_⟩
  · intro ep name tags value
    obtain ⟨cm', pm', hrun, -, -, -, -, hpers, hhist⟩ :=
      ep.call_both st cm pm name tags value hc hp hwfc hwfp
    refine ⟨_, hrun, ?_, ?_⟩
    · intro h
      rw [hhist h, hp]
    · intro h
      rw [hpers h, hc]
  · intro mem
    obtain ⟨st', hrun, -, h, -⟩ := writeHistogram_fields st cm mem hc hwfc
    exact ⟨st', hrun, h⟩
  · obtain ⟨st', hrun, h, -, -⟩ := writePersistentCounter_fields st pm hp hwfp
    exact ⟨st', hrun, h⟩
  · exact ⟨_, ResetPersistentCounter_eq st pm hp, rfl⟩

/-- C14 at the sample state, whose two registries hold the same keys. -/
theorem C14_registries_independent_witness :
    (∀ (ep : EntryPoint) (name : GoString) (tags : List GoString) (value : Int),
        ∃ st', ep.call sampleState name tags value = some st'
          ∧ (ep.isPersistent = false → st'.pcMap = sampleState.pcMap)
          ∧ (ep.isPersistent = true → st'.cMap = sampleState.cMap))
      ∧ (∀ mem, ∃ st', writeHistogram sampleState mem = some st'
          ∧ st'.pcMap = sampleState.pcMap)
      ∧ (∃ st', writePersistentCounter sampleState = some st'
          ∧ st'.cMap = sampleState.cMap)
      ∧ (∃ st', ResetPersistentCounter sampleState = some st'
          ∧ st'.cMap = sampleState.cMap) :=
  C14_registries_independent sampleState sampleRegistry sampleRegistry rfl rfl
    (by decide) (by decide)

/-- C15: for every state whose persistent registry exists and is well formed, after any
number of drains `ResetPersistentCounter` returns and stores the registry with the same
keys and every cell at 0; the first drain after it returns and hands the sinks (log
line and, when the datadog client is set, gauge) one triple per entry, each with the
value 0. -/
theorem C15_reset_persistent_zeroes (st : State) (pm : counterMap) (n : Nat)
    (hp : st.pcMap = some pm) (hwf : pm.wf) :
    ∃ stn st' loop,
      repeatCall writePersistentCounter n st = some stn
        ∧ stn.pcMap = some pm
        ∧ ResetPersistentCounter stn = some st'
        ∧ st'.pcMap = some { m := zeroed pm.m }
        ∧ (zeroed pm.m).map Prod.fst = pm.keys
        ∧ (∀ k ∈ pm.keys, (mapGet k (zeroed pm.m)).map dataCounter.read = some 0)
        ∧ writePersistentCounter st' = some (writeMetrics st' loop)
        ∧ writePersistentCounter st'
            = some { st' with trace := st'.trace ++ emissions st'.ddCli loop }
        ∧ List.Forall₂ reports (zeroed pm.m) loop
        ∧ ∀ mt ∈ loop, mt.val = 0 := by
  obtain ⟨stn, hrun, hpn, -, -⟩ := repeat_writePersistentCounter n st pm hp hwf
  have hz := zeroed_wf pm hwf
  refine ⟨stn, _, (zeroed pm.m).map metricOf, hrun, hpn, ResetPersistentCounter_eq stn pm hpn,
    rfl, keys_zeroed pm.m, ?_, ?_, ?_, ?_, metricOf_zeroed_val pm.m⟩
  · intro k hk
    rw [mapGet_zeroed]
    cases hg : mapGet k pm.m with
    | none => exact absurd hk ((mapGet_eq_none_iff k pm.m).1 hg)
    | some c => rfl
  · exact writePersistentCounter_eq _ { m := zeroed pm.m } rfl hz
  · exact writePersistentCounter_trace _ { m := zeroed pm.m } rfl hz
  · exact reports_metricOf _ (wf_decodes _ hz)

/-- C15 at the sample state, after two drains. -/
theorem C15_reset_persistent_zeroes_witness :
    ∃ stn st' loop,
      repeatCall writePersistentCounter 2 sampleState = some stn
        ∧ stn.pcMap = some sampleRegistry
        ∧ ResetPersistentCounter stn = some st'
        ∧ st'.pcMap = some { m := zeroed sampleRegistry.m }
        ∧ (zeroed sampleRegistry.m).map Prod.fst = sampleRegistry.keys
        ∧ (∀ k ∈ sampleRegistry.keys,
            (mapGet k (zeroed sampleRegistry.m)).map dataCounter.read = some 0)
        ∧ writePersistentCounter st' = some (writeMetrics st' loop)
        ∧ writePersistentCounter st'
            = some { st' with trace := st'.trace ++ emissions st'.ddCli loop }
        ∧ List.Forall₂ reports (zeroed sampleRegistry.m) loop
        ∧ ∀ mt ∈ loop, mt.val = 0 :=
  C15_reset_persistent_zeroes sampleState sampleRegistry 2 rfl (by decide)

/-- C17, at the failing input: with the resettable registry set and the persistent one
nil, `SetTaggedPCounter` and `SetPCounter` pass their guard (it reads `cMap`) and panic
in `modifyCounter` on the nil `pcMap`, while `IncTaggedPCounter` and `DecTaggedPCounter`
(their guard reads `pcMap`) log an error and return. -/
theorem C17_SetTaggedPCounter_panics :
    SetTaggedPCounter { State.initial with cMap := some newCounterMap } [120] [] 1 = none
      ∧ SetPCounter { State.initial with cMap := some newCounterMap } [120] 1 = none
      ∧ IncTaggedPCounter { State.initial with cMap := some newCounterMap } [120] [] 1
          = some (Errorf { State.initial with cMap := some newCounterMap }
              (bytes "IncCounter() called before StartHistogramLogging()"))
      ∧ DecTaggedPCounter { State.initial with cMap := some newCounterMap } [120] [] 1
          = some (Errorf { State.initial with cMap := some newCounterMap }
              (bytes "DecCounter() called before StartHistogramLogging()")) :=
  ⟨rfl, rfl, rfl, rfl⟩

/-- C18, at the failing input: before setup `ResetPersistentCounter` panics on the nil
`pcMap`, while an entry point such as `IncPCounter` logs an error and returns. -/
theorem C18_ResetPersistentCounter_panics :
    ResetPersistentCounter State.initial = none
      ∧ IncPCounter State.initial [120] 1
          = some (Errorf State.initial
              (bytes "IncCounter() called before StartHistogramLogging()")) :=
  ⟨rfl, rfl⟩

/-- C19: in every state after setup (both registries exist and are well formed), every
step (an entry point, a drain, the reset, a further start, a new log interval) returns
a state after setup in which every key of either registry is still a key of it; and a
drained resettable registry keeps its keys with every cell at 0, which the next drain
reports to the sinks (log line and, when the datadog client is set, gauge), one triple
per entry, each with the value 0. -/
theorem C19_no_deletion (st : State) (op : Op) (mem1 mem2 : MemStats) (hr : st.ready) :
    (∃ st', op.run st = some st' ∧ st'.ready
        ∧ keysOf st.cMap ⊆ keysOf st'.cMap ∧ keysOf st.pcMap ⊆ keysOf st'.pcMap)
      ∧ ∃ cm st1 loop,
          st.cMap = some cm
            ∧ writeHistogram st mem1 = some st1
            ∧ st1.cMap = some { m := zeroed cm.m }
            ∧ (zeroed cm.m).map Prod.fst = cm.keys
            ∧ writeHistogram st1 mem2
                = some (writeMemoryConsumption
                    (writeMetrics { st1 with cMap := some { m := zeroed (zeroed cm.m) } } loop)
                    mem2)
            ∧ writeHistogram st1 mem2
                = some { st1 with
                    cMap := some { m := zeroed (zeroed cm.m) }
                    trace := st1.trace ++ emissions st1.ddCli loop
                      ++ emissions st1.ddCli (memoryTriples mem2) }
            ∧ List.Forall₂ reports (zeroed cm.m) loop
            ∧ ∀ mt ∈ loop, mt.val = 0 := by
  obtain ⟨hl, ⟨cm, hc, hwfc⟩, ⟨pm, hp, hwfp⟩⟩ := hr
  have sub : ∀ l : List GoString, l ⊆ l := fun _ _ h => h
  constructor
  · cases op with
    | counter ep name tags value =>
      obtain ⟨cm', pm', hrun, w1, w2, k1, k2, -, -⟩ :=
        ep.call_both st cm pm name tags value hc hp hwfc hwfp
      refine ⟨_, hrun, ⟨hl, ⟨cm', rfl, w1⟩, ⟨pm', rfl, w2⟩⟩, ?_, ?_⟩
      · rw [hc]; exact k1
      · rw [hp]; exact k2
    | writeHistogram mem =>
      obtain ⟨st', hrun, h1, h2, h3⟩ := writeHistogram_fields st cm mem hc hwfc
      refine ⟨st', hrun, ⟨by rw [h3, hl], ⟨_, h1, zeroed_wf cm hwfc⟩, ⟨pm, by rw [h2, hp], hwfp⟩⟩,
        ?_, ?_⟩
      · rw [h1, hc]
        simp only [keysOf, counterMap.keys, keys_zeroed]
        exact sub _
      · rw [h2]; exact sub _
    | writePersistentCounter =>
      obtain ⟨st', hrun, h1, h2, h3⟩ := writePersistentCounter_fields st pm hp hwfp
      refine ⟨st', hrun, ⟨by rw [h3, hl], ⟨cm, by rw [h1, hc], hwfc⟩, ⟨pm, by rw [h2, hp], hwfp⟩⟩,
        ?_, ?_⟩
      · rw [h1]; exact sub _
      · rw [h2]; exact sub _
    | ResetPersistentCounter =>
      refine ⟨_, ResetPersistentCounter_eq st pm hp,
        ⟨hl, ⟨cm, hc, hwfc⟩, ⟨_, rfl, zeroed_wf pm hwfp⟩⟩, sub _, ?_⟩
      rw [hp]
      simp only [keysOf, counterMap.keys, keys_zeroed]
      exact sub _
    | StartHistogramLogging =>
      have h : Glog.StartHistogramLogging st = st := by
        unfold Glog.StartHistogramLogging
        rw [if_pos hl]
      refine ⟨st, by simp only [Op.run, h], ⟨hl, ⟨cm, hc, hwfc⟩, ⟨pm, hp, hwfp⟩⟩, sub _, sub _⟩
    | SetLogInterval l =>
      exact ⟨_, rfl, ⟨hl, ⟨cm, hc, hwfc⟩, ⟨pm, hp, hwfp⟩⟩, sub _, sub _⟩
  · obtain ⟨st1, hrun1, h1, -, -⟩ := writeHistogram_fields st cm mem1 hc hwfc
    have hz := zeroed_wf cm hwfc
    have hrun2 := writeHistogram_eq st1 { m := zeroed cm.m } mem2 h1 hz
    have hrun3 := writeHistogram_trace st1 { m := zeroed cm.m } mem2 h1 hz
    rw [emissions_append, ← List.append_assoc] at hrun3
    exact ⟨cm, st1, (zeroed cm.m).map metricOf, hc, hrun1, h1, keys_zeroed cm.m, hrun2, hrun3,
      reports_metricOf _ (wf_decodes _ hz), metricOf_zeroed_val cm.m⟩

/-- C19 at the sample state, for a decrement of a new counter. -/
theorem C19_no_deletion_witness :
    (∃ st', (Op.counter EntryPoint.DecCounter [122] [] 4).run sampleState = some st'
        ∧ st'.ready
        ∧ keysOf sampleState.cMap ⊆ keysOf st'.cMap
        ∧ keysOf sampleState.pcMap ⊆ keysOf st'.pcMap)
      ∧ ∃ cm st1 loop,
          sampleState.cMap = some cm
            ∧ writeHistogram sampleState sampleMem = some st1
            ∧ st1.cMap = some { m := zeroed cm.m }
            ∧ (zeroed cm.m).map Prod.fst = cm.keys
            ∧ writeHistogram st1 sampleMem
                = some (writeMemoryConsumption
                    (writeMetrics { st1 with cMap := some { m := zeroed (zeroed cm.m) } } loop)
                    sampleMem)
            ∧ writeHistogram st1 sampleMem
                = some { st1 with
                    cMap := some { m := zeroed (zeroed cm.m) }
                    trace := st1.trace ++ emissions st1.ddCli loop
                      ++ emissions st1.ddCli (memoryTriples sampleMem) }
            ∧ List.Forall₂ reports (zeroed cm.m) loop
            ∧ ∀ mt ∈ loop, mt.val = 0 :=
  C19_no_deletion sampleState (Op.counter EntryPoint.DecCounter [122] [] 4) sampleMem sampleMem
    ⟨rfl, ⟨sampleRegistry, rfl, by decide⟩, ⟨sampleRegistry, rfl, by decide⟩⟩

/-! ## Claims on the cell -/

/-- C20: on a cell holding any `int64` value `x`, `increment(v)` followed by
`decrement(v)` leaves the cell reading `x`, for every `v`, in two's complement (also
for `v = -2^63`, whose negation wraps). -/
theorem C20_decrement_undoes_increment (x v : Int) (hx : isInt64 x) :
    (({ i := x } : dataCounter).increment v).decrement v = { i := x }
      ∧ ((({ i := x } : dataCounter).increment v).decrement v).read = x := by
  have h : (({ i := x } : dataCounter).increment v).decrement v = { i := x } := by
    simp only [dataCounter.increment, dataCounter.decrement, wrap64_add_wrap64,
      wrap64_wrap64_add]
    have e : x + v + -v = x := by ring
    rw [e, wrap64_of_isInt64 x hx]
  exact ⟨h, by rw [h]; rfl⟩

/-- C20 at `x = 5` and `v = -2^63`. -/
theorem C20_decrement_undoes_increment_witness :
    (({ i := 5 } : dataCounter).increment (-9223372036854775808)).decrement
          (-9223372036854775808) = { i := 5 }
      ∧ ((({ i := 5 } : dataCounter).increment (-9223372036854775808)).decrement
          (-9223372036854775808)).read = 5 :=
  C20_decrement_undoes_increment 5 (-9223372036854775808) (by decide)

/-! ## Claims on the log line -/

/-- C16: for every name, tag list and value, `logMetric` hands the logger one line:
`name: value` when the tag list is empty and `name#[t1 t2 ... tn]: value` otherwise,
the tags separated by one space between square brackets, the value in signed decimal,
the line ended by a newline; nothing else of the state changes. -/
theorem C16_logMetric_line (st : State) (name : GoString) (tags : List GoString)
    (val : Int) :
    logMetric st name tags val
      = { st with trace := st.trace ++ [Event.Infof (referenceLine name tags val)] } := by
  unfold logMetric referenceLine Infof
  rw [fmtInt_eq_decimal, fmtTags_eq]
  cases tags with
  | nil => simp [bytes]
  | cons t ts => simp [bytes]

/-! ## Claims on decoding stored keys -/

/-- C21: for every name and tag list whatsoever, the encoded key is not empty and its
marker byte is at most its length, so `decodeCounterKey` returns on it without a panic;
and in every state reached by a run after the first `StartHistogramLogging` (whose keys
all come from `encodeCounterKey`), every key of both registries decodes and
`writeHistogram` and `writePersistentCounter` return without a panic. -/
theorem C21_stored_keys_decode (name : GoString) (tags : List GoString) (st0 : State)
    (ops : List Op) (mem : MemStats) (h0 : st0.hLogOnce = false) :
    (∃ m rest, encodeCounterKey name tags = m :: rest ∧ m ≤ (m :: rest).length)
      ∧ (∃ r, decodeCounterKey (encodeCounterKey name tags) = some r)
      ∧ ∃ st, runOps ops (StartHistogramLogging st0) = some st
          ∧ (∀ k ∈ keysOf st.cMap ++ keysOf st.pcMap, ∃ r, decodeCounterKey k = some r)
          ∧ (∃ st', writeHistogram st mem = some st')
          ∧ (∃ st', writePersistentCounter st = some st') := by
  refine ⟨encode_marker_le name tags,
    Option.isSome_iff_exists.1 (decode_encode_isSome name tags), ?_⟩
  obtain ⟨st, hrun, hl, ⟨cm, hc, hwfc⟩, ⟨pm, hp, hwfp⟩⟩ :=
    runOps_ready ops _ (StartHistogramLogging_ready st0 h0)
  refine ⟨st, hrun, ?_, ?_, ?_⟩
  · intro k hk
    rw [hc, hp] at hk
    rcases List.mem_append.1 hk with h | h
    · exact Option.isSome_iff_exists.1 (hwfc.2 k h)
    · exact Option.isSome_iff_exists.1 (hwfp.2 k h)
  · obtain ⟨st', h, -⟩ := writeHistogram_fields st cm mem hc hwfc
    exact ⟨st', h⟩
  · obtain ⟨st', h, -⟩ := writePersistentCounter_fields st pm hp hwfp
    exact ⟨st', h⟩

/-- C21 at a name of 300 bytes with a tag that holds the separator, and a run that
stores that key in both registries. -/
theorem C21_stored_keys_decode_witness :
    (∃ m rest, encodeCounterKey (List.replicate 300 97) [[98, 59, 99]] = m :: rest
        ∧ m ≤ (m :: rest).length)
      ∧ (∃ r, decodeCounterKey (encodeCounterKey (List.replicate 300 97) [[98, 59, 99]])
          = some r)
      ∧ ∃ st,
          runOps
              [Op.counter EntryPoint.IncTaggedCounter (List.replicate 300 97) [[98, 59, 99]] 1,
               Op.counter EntryPoint.SetTaggedPCounter (List.replicate 300 97) [[98, 59, 99]] 2]
              (StartHistogramLogging State.initial) = some st
          ∧ (∀ k ∈ keysOf st.cMap ++ keysOf st.pcMap, ∃ r, decodeCounterKey k = some r)
          ∧ (∃ st', writeHistogram st sampleMem = some st')
          ∧ (∃ st', writePersistentCounter st = some st') :=
  C21_stored_keys_decode (List.replicate 300 97) [[98, 59, 99]] State.initial
    [Op.counter EntryPoint.IncTaggedCounter (List.replicate 300 97) [[98, 59, 99]] 1,
     Op.counter EntryPoint.SetTaggedPCounter (List.replicate 300 97) [[98, 59, 99]] 2]
    sampleMem rfl

end Glog
